import Mathlib

/-!
Verification of the text-formatting module (`util/text/__init__.py`) of the
Karkat IRC bot.

Python strings are modelled as lists of Unicode codepoints (`List Char`),
matching Python `str` indexing/length semantics.  Regex-driven operations of
the source are embedded as deterministic character-list scanners; each scanner
carries a comment naming the regex it implements and why the translation is
exact.  Several scanners take an explicit fuel argument (always called with
the length of the scanned list) so that every definition is structurally
recursive and hence computable by the kernel; fuel-irrelevance lemmas recover
the natural unfolding equations.
-/

/-- Python `str` as a list of codepoints. -/
abbrev Str := List Char

/-- Codepoints of a Lean string literal, used to write concrete inputs. -/
def str (s : String) : Str := s.data

/- Control codes, from `class ControlCode` (source lines 51-57). -/

/-- `ControlCode.ITALICS = "\x1d"`. -/
def ITALICS : Char := '\x1d'

/-- `ControlCode.BOLD = "\x02"`. -/
def BOLD : Char := '\x02'

/-- `ControlCode.UNDERLINE = "\x1f"`. -/
def UNDERLINE : Char := '\x1f'

/-- `ControlCode.COLOUR = "\x03"`. -/
def COLOUR : Char := '\x03'

/-- `ControlCode.RESET = "\x0f"`. -/
def RESET : Char := '\x0f'

/-- `ControlCode.REVERSE = "\x16"`. -/
def REVERSE : Char := '\x16'

/-- Regex `\d`: a decimal digit.  (The marker grammar's colour arguments are
decimal digits `0`-`9`, per spec section 4.1.) -/
def isDig (c : Char) : Bool := '0' ≤ c && c ≤ '9'

/-- The four toggle control characters, character class `[\x1d\x02\x1f\x16]`. -/
def isToggle (c : Char) : Bool :=
  c = '\x1d' || c = '\x02' || c = '\x1f' || c = '\x16'

/-- Character class `[\x1d\x02\x1f\x0f\x16]` used by `minify`. -/
def isCtrl (c : Char) : Bool :=
  c = '\x1d' || c = '\x02' || c = '\x1f' || c = '\x0f' || c = '\x16'

/-- The single-character alternatives `\x1f|\x0f|\x16|\x02|̅` of the
`ircstrip` regex (source line 118). -/
def isStripCtl (c : Char) : Bool :=
  c = '\x1f' || c = '\x0f' || c = '\x16' || c = '\x02' || c = '\u0305'

/-- Greedy match of regex `\d{0,2}` (equivalently `\d?\d?`): consume up to two
digits.  Returns (consumed, rest). -/
def takeDigits2 : Str → Str × Str
  | [] => ([], [])
  | c :: r =>
    if isDig c then
      match r with
      | c2 :: r2 => if isDig c2 then ([c, c2], r2) else ([c], c2 :: r2)
      | [] => ([c], [])
    else ([], c :: r)

/-- Greedy match of regex `(,\d{1,2})?` (equivalently `(,\d\d?)?`): consume a
comma followed by one or two digits, if present.  Returns (consumed, rest). -/
def takeBg : Str → Str × Str
  | ',' :: c :: r =>
    if isDig c then
      match r with
      | c2 :: r2 => if isDig c2 then ([',', c, c2], r2) else ([',', c], c2 :: r2)
      | [] => ([',', c], [])
    else ([], ',' :: c :: r)
  | l => ([], l)

/-- Greedy match of the tail of a colour token after its `\x03`: regex
`\d{0,2}(,\d{1,2})?`.  The same tail grammar appears in every colour pattern
of the source (lines 118, 167, 208, 217, 247, 250, 253); both spellings
`\d{0,2}(,\d{1,2})?` and `\d?\d?(,\d\d?)?` match the same strings greedily.
Returns (consumed, rest). -/
def colorTail (l : Str) : Str × Str :=
  let p1 := takeDigits2 l
  let p2 := takeBg p1.2
  (p1.1 ++ p2.1, p2.2)

/-- `ircstrip` scanner with fuel; `fuel ≥ l.length` always in use.
Implements `re.sub(r"(\x03(\d{0,2}(,\d{1,2})?)?|\x1f|\x0f|\x16|\x02|̅)", "", data)`
(source lines 115-119): at each position the leftmost-greedy matcher removes a
colour token (`\x03` plus `colorTail`) or one of the five single control
characters, otherwise keeps the character.  The alternatives start with
distinct characters, so the scan is deterministic. -/
def ircstripF : Nat → Str → Str
  | _, [] => []
  | 0, l => l
  | fuel + 1, c :: r =>
    if c = '\x03' then ircstripF fuel (colorTail r).2
    else if isStripCtl c then ircstripF fuel r
    else c :: ircstripF fuel r

/-- `def ircstrip(data)` (source lines 115-119): strip IRC control characters
(and the combining overline U+0305) from a string. -/
def ircstrip (l : Str) : Str := ircstripF l.length l

/-- `def striplen(data): return len(ircstrip(data))` (source lines 151-153),
the display length of a string. -/
def striplen (l : Str) : Nat := (ircstrip l).length

/-- `def overline(text): return "̅" + "̅".join(text)`
(source lines 464-465). -/
def overline (text : Str) : Str := '\u0305' :: List.intersperse '\u0305' text

/-- The loop of `def join_until(separator, parts, ceiling=None, measure=len)`
(source lines 21-48): `result` starts as `None`; each element popped from the
queue forms `candidate` (`element` if `result is None`, else
`result + separator + element`); if a ceiling is given and
`measure(candidate) > ceiling` the current `result` is returned, otherwise
`result` becomes the candidate. -/
def join_untilGo (separator : Str) (ceiling : Option Nat) (measure : Str → Nat) :
    Option Str → List Str → Option Str
  | result, [] => result
  | result, element :: queue =>
    let candidate :=
      match result with
      | none => element
      | some r => r ++ separator ++ element
    match ceiling with
    | some c =>
      if measure candidate > c then result
      else join_untilGo separator ceiling measure (some candidate) queue
    | none => join_untilGo separator ceiling measure (some candidate) queue

/-- `def join_until(separator, parts, ceiling=None, measure=len)` (source lines
21-48), with the measure passed explicitly. -/
def join_until (separator : Str) (parts : List Str) (ceiling : Option Nat)
    (measure : Str → Nat) : Option Str :=
  join_untilGo separator ceiling measure none parts

/-- `join_until` as called without an explicit `measure` argument: the
source's default parameter is `measure=len`, the raw codepoint count. -/
def join_until_default (separator : Str) (parts : List Str)
    (ceiling : Option Nat) : Option Str :=
  join_until separator parts ceiling List.length

/-- Number of queue elements accepted into the result by the `join_until`
loop before it returns (mirrors `join_untilGo` decision for decision). -/
def join_untilCount (separator : Str) (ceiling : Option Nat) (measure : Str → Nat) :
    Option Str → List Str → Nat
  | _, [] => 0
  | result, element :: queue =>
    let candidate :=
      match result with
      | none => element
      | some r => r ++ separator ++ element
    match ceiling with
    | some c =>
      if measure candidate > c then 0
      else 1 + join_untilCount separator ceiling measure (some candidate) queue
    | none => 1 + join_untilCount separator ceiling measure (some candidate) queue

/-- How many leading elements of `parts` are accepted into the result of
`join_until separator parts (some c) measure`. -/
def acceptedCount (separator : Str) (measure : Str → Nat) (c : Nat)
    (parts : List Str) : Nat :=
  join_untilCount separator (some c) measure none parts

/-- `joinAcc sep acc l` intercalates `sep` through `l` starting from the
accumulated optional prefix `acc` (the pure joining of the loop, with no
ceiling). -/
def joinAcc (separator : Str) : Option Str → List Str → Option Str
  | acc, [] => acc
  | none, p :: ps => joinAcc separator (some p) ps
  | some r, p :: ps => joinAcc separator (some (r ++ separator ++ p)) ps

/-- `separator.join(l)` for nonempty `l`, `None` for empty `l`: the value
`join_until` computes on the accepted prefix. -/
def joinParts (separator : Str) (l : List Str) : Option Str :=
  joinAcc separator none l

/-- A character that is neither a marker control byte nor the colour
introducer: ordinary literal text for `minify`. -/
def isPlain (c : Char) : Bool := !(isCtrl c || c = '\x03')

/-- Stable insertion of a character into an ascending list. -/
def insertSorted (c : Char) : Str → Str
  | [] => [c]
  | d :: r => if c ≤ d then c :: d :: r else d :: insertSorted c r

/-- Python `sorted(data)` on a string: characters in ascending codepoint
order.  Any ascending arrangement of a character multiset is the same list
(equal characters are indistinguishable), so insertion sort produces exactly
the output of Python's stable sort. -/
def insSort : Str → Str
  | [] => []
  | c :: r => insertSorted c (insSort r)

/-- `re.sub(r"([\x1d\x02\x1f\x16])\1", "", data)` (source line 172, step 3a of
`control_reduce`): a single left-to-right pass deleting non-overlapping pairs
of equal adjacent toggle characters, resuming after each deleted pair. -/
def rtp : Str → Str
  | c1 :: c2 :: rest =>
    if c1 = c2 && isToggle c1 then rtp rest else c1 :: rtp (c2 :: rest)
  | l => l

/-- `data.rsplit("\x0f", 1)[-1]` (source line 163): the suffix after the last
reset character (the whole string when no reset occurs). -/
def afterLastReset (l : Str) : Str :=
  (l.reverse.takeWhile (fun c => c != '\x0f')).reverse

/-- Scanner with fuel for `re.findall(r"\x03\d?\d?(?:,\d\d?)?", data)` and
`re.sub(r"(\x03\d?\d?(?:,\d\d?)?)", "", data)` (source lines 167-168): one
deterministic pass computing simultaneously the list of colour-token matches
and the string with those matches deleted (both regex calls use the same
pattern on the same string, so they see the same match set). -/
def colorSplitF : Nat → Str → List Str × Str
  | _, [] => ([], [])
  | 0, l => ([], l)
  | fuel + 1, c :: r =>
    if c = '\x03' then
      let t := colorTail r
      let rec2 := colorSplitF fuel t.2
      (('\x03' :: t.1) :: rec2.1, rec2.2)
    else
      let rec2 := colorSplitF fuel r
      (rec2.1, c :: rec2.2)

/-- Colour findall/sub split of a marker run (source lines 167-168). -/
def colorSplit (l : Str) : List Str × Str := colorSplitF l.length l

/-- `i.split(",")` for `i` containing exactly one comma: the parts before and
after it (colour-token tails contain at most one comma by construction of the
pattern, so Python's two-name unpacking `foreground, background = i.split(",")`
succeeds). -/
def splitFirstComma (l : Str) : Str × Str :=
  (l.takeWhile (fun c => c != ','), (l.dropWhile (fun c => c != ',')).drop 1)

/-- One step of the colour-merging loop of `control_reduce` (source lines
176-186): `""` clears both slots, a comma-free tail sets the foreground, a
leading comma sets the background, and a two-part tail sets both. -/
def foldColor (acc : Option Str × Option Str) (i : Str) : Option Str × Option Str :=
  if i = [] then (none, none)
  else if ',' ∉ i then (some i, acc.2)
  else if i.headD ' ' = ',' then (acc.1, some (i.drop 1))
  else
    let p := splitFirstComma i
    (some p.1, some p.2)

/-- Rebuild the merged colour token from the folded (foreground, background)
pair (source lines 187-194): bare `"\\x03"` when both are `None`, otherwise
the marker with the components it carries. -/
def mergeColorsAux : Option Str × Option Str → Str
  | (none, none) => ['\x03']
  | (none, some b) => '\x03' :: ',' :: b
  | (some f, none) => '\x03' :: f
  | (some f, some b) => ('\x03' :: f) ++ (',' :: b)

/-- Step 3b of `control_reduce` (source lines 175-196): fold the colour-token
tails left to right and rebuild the single merged colour token. -/
def mergeColors (colors : List Str) : Str :=
  mergeColorsAux ((colors.map (fun i => i.drop 1)).foldl foldColor (none, none))

/-- `def control_reduce(data)` (source lines 156-198) on the matched run text
`data.group(0)`: delete everything before the last reset (remembering that a
reset occurred), pull out the colour tokens, sort the remaining characters,
delete cancelling toggle pairs, merge the colour tokens into one, and emit
reset, then colour, then toggles. -/
def control_reduce (g : Str) : Str :=
  let hasReset := '\x0f' ∈ g
  let data0 := if hasReset then afterLastReset g else g
  let reset : Str := if hasReset then ['\x0f'] else []
  let cs := colorSplit data0
  let data1 := insSort cs.2
  let data2 := rtp data1
  let colorPart : Str := if cs.1.isEmpty then [] else mergeColors cs.1
  reset ++ colorPart ++ data2

/-- One token of `minify`'s marker alternation
`[\x1d\x02\x1f\x0f\x16]|\x03\d?\d?(?:,\d\d?)?` at the head of the string:
a single control character, or `\x03` with its greedy colour tail.  The
alternatives start with distinct characters, so matching is deterministic. -/
def tokenAt : Str → Option (Str × Str)
  | [] => none
  | c :: r =>
    if isCtrl c then some ([c], r)
    else if c = '\x03' then
      let t := colorTail r
      some ('\x03' :: t.1, t.2)
    else none

/-- Greedy maximal chain of one or more tokens at the head of the string
(fuelled).  This is the match of `(...)+` over the token alternation: each
token is matched with maximal munch, and any character a shorter token parse
would expose is a digit or a comma, which cannot start a token, so the greedy
chain is the regex's leftmost-longest match. -/
def takeRunF : Nat → Str → Option (Str × Str)
  | _, [] => none
  | 0, _ => none
  | fuel + 1, l =>
    match tokenAt l with
    | none => none
    | some (t, r) =>
      match takeRunF fuel r with
      | some (ts, r2) => some (t ++ ts, r2)
      | none => some (t, r)

/-- Maximal marker run at the head of the string. -/
def takeRun (l : Str) : Option (Str × Str) := takeRunF l.length l

/-- Step 1 of `minify` (source lines 207-211):
`re.sub(r"([\x1d\x02\x1f\x0f\x16]|\x03\d?\d?(,\d\d?)?)+", control_reduce, data)`
— replace every maximal contiguous marker run by its `control_reduce`. -/
def runSubF : Nat → Str → Str
  | _, [] => []
  | 0, l => l
  | fuel + 1, c :: r =>
    match takeRun (c :: r) with
    | some (run, rest) => control_reduce run ++ runSubF fuel rest
    | none => c :: runSubF fuel r

/-- Step 1 of `minify`: reduce all contiguous blocks of control codes. -/
def runSub (l : Str) : Str := runSubF l.length l

/-- A piece of `re.split(r"([\x1d\x02\x1f\x0f\x16]|\x03\d?\d?(?:,\d\d?)?)", data)`
(source line 217): literal text between markers, or one marker token. -/
inductive Piece where
  | lit (s : Str)
  | tok (s : Str)
deriving DecidableEq, Repr

/-- The `re.split` of `minify` step 2 (source line 217), fuelled.  Python's
split also yields empty literal strings between adjacent tokens and at the
ends; those are omitted here, which leaves step 2 unchanged since appending an
empty string to `reduced` is a no-op.  The `re.match` test in the loop (line
218) distinguishes exactly the token pieces, because a literal piece never
begins with a marker byte (every marker byte is consumed into some token). -/
def tokSplitF : Nat → Str → List Piece
  | _, [] => []
  | 0, _ => []
  | fuel + 1, c :: r =>
    match tokenAt (c :: r) with
    | some (t, rest) => Piece.tok t :: tokSplitF fuel rest
    | none =>
      match tokSplitF fuel r with
      | Piece.lit s :: ps => Piece.lit (c :: s) :: ps
      | ps => Piece.lit [c] :: ps

/-- Token/literal split of a line (minify step 2, source line 217). -/
def tokSplit (l : Str) : List Piece := tokSplitF l.length l

/-- The `toggles` dictionary of `minify` step 2 (source line 215):
`dict(zip("\x1d\x02\x1f\x16", (False, False, False, False)))`. -/
structure Toggles where
  italics : Bool
  bold : Bool
  underline : Bool
  reverse : Bool
deriving DecidableEq, Repr

/-- `any(toggles.values())`. -/
def togAny (t : Toggles) : Bool := t.italics || t.bold || t.underline || t.reverse

/-- `toggles[i] = not toggles[i]` for the toggle keyed by `c`. -/
def togFlip (t : Toggles) (c : Char) : Toggles :=
  if c = '\x1d' then {t with italics := !t.italics}
  else if c = '\x02' then {t with bold := !t.bold}
  else if c = '\x1f' then {t with underline := !t.underline}
  else {t with reverse := !t.reverse}

/-- `i in toggles`: the dictionary keys are the four one-character toggle
strings. -/
def isToggleTok : Str → Bool
  | [c] => isToggle c
  | _ => false

/-- `any(colors)` for the `colors` pair of `minify` step 2 with Python
truthiness (`None` and `""` are falsy).  The source initialises
`colors = None, None` (line 214) and never reassigns it inside the loop. -/
def anyColors (cv : Option Str × Option Str) : Bool :=
  (match cv.1 with | some s => !s.isEmpty | none => false) ||
  (match cv.2 with | some s => !s.isEmpty | none => false)

/-- `l.rstrip(",")`: remove all trailing commas. -/
def rstripComma (l : Str) : Str :=
  (l.reverse.dropWhile (fun c => c == ',')).reverse

/-- Total stand-in for joining an optional string; the `none` case would be a
Python `TypeError` in `",".join` and is unreachable because it requires the
never-reassigned `colors` slot to be non-`None`. -/
def pyOptStr : Option Str → Str
  | some s => s
  | none => []

/-- The colour branch of `minify` step 2 (source lines 228-237) applied to one
colour token `i`: `codes = i[1:].split(",")`.  The source's first test
`codes == ("",)` compares a list with a tuple and is therefore always `False`
in Python, so it is omitted.  A one-part `codes` is appended when
`colors[0] != codes[0]` (always true: `colors[0]` is `None`); a two-part
`codes` is rewritten against `colors` and appended; the `elif` chain appends
nothing otherwise. -/
def step2ColorPiece (cv : Option Str × Option Str) (i : Str) : Option Str :=
  let codes := (i.drop 1).splitOn ','
  match codes with
  | [c0] => if cv.1 ≠ some c0 then some i else none
  | [c0, c1] =>
    let codesO := [if c0 = [] then none else some c0, if c1 = [] then none else some c1]
    let merged := (codesO.zip [cv.1, cv.2]).map
      (fun p => if p.1 = p.2 then ([] : Str) else pyOptStr p.1)
    some ('\x03' :: rstripComma (List.intercalate [','] merged))
  | _ => none

/-- The loop of `minify` step 2 (source lines 214-238): walk the split pieces
carrying the toggle dictionary (and the never-reassigned `colors` pair),
appending literals, appending and flipping toggles, keeping a reset only when
no toggle and no colour is active, and filtering colour tokens. -/
def step2Go (cv : Option Str × Option Str) : Toggles → List Piece → List Str
  | _, [] => []
  | tg, Piece.lit s :: ps => s :: step2Go cv tg ps
  | tg, Piece.tok i :: ps =>
    if isToggleTok i then
      i :: step2Go cv (togFlip tg (i.headD ' ')) ps
    else if i = ['\x0f'] then
      if !togAny tg && !anyColors cv then i :: step2Go cv tg ps
      else step2Go cv tg ps
    else if i.headD ' ' = '\x03' then
      match step2ColorPiece cv i with
      | some o => o :: step2Go cv tg ps
      | none => step2Go cv tg ps
    else step2Go cv tg ps

/-- Step 2 of `minify` (source lines 213-238): get rid of redundant colour
codes; `data = "".join(reduced)`. -/
def step2 (l : Str) : Str :=
  List.flatten (step2Go (none, none) ⟨false, false, false, false⟩ (tokSplit l))

/-- Step 3a of `minify` (source line 247):
`re.sub(r"\x030(\d),", r"\x03\1,", data)` — scan left to right; on the exact
four-character pattern delete the `0` and resume after the match, otherwise
advance one character. -/
def step3a : Str → Str
  | [] => []
  | '\x03' :: '0' :: d :: ',' :: rest =>
    if isDig d then '\x03' :: d :: ',' :: step3a rest
    else '\x03' :: step3a ('0' :: d :: ',' :: rest)
  | c :: r => c :: step3a r

/-- The `0 (\d [^\d])` core of step 3b after a chosen group-1: requires a
literal `0`, a digit, and a non-digit; the replacement drops the `0`. -/
def try3bAux (g1 : Str) (rest : Str) : Option (Str × Str) :=
  match rest with
  | '0' :: d :: x :: r => if isDig d && !isDig x then some (g1 ++ [d, x], r) else none
  | _ => none

/-- Match of `(\x03(?:\d?\d?,)?)0(\d[^\d])` (source line 250) after its
`\x03`, following the regex engine's backtracking order for the optional
group-1 tail: two digits and a comma, one digit and a comma, a bare comma,
then the empty tail.  Returns (match text after `\x03` minus the deleted `0`,
rest after the match). -/
def try3b (l : Str) : Option (Str × Str) :=
  let c1 :=
    match l with
    | a :: b :: ',' :: r => if isDig a && isDig b then try3bAux [a, b, ','] r else none
    | _ => none
  match c1 with
  | some v => some v
  | none =>
    let c2 :=
      match l with
      | a :: ',' :: r => if isDig a then try3bAux [a, ','] r else none
      | _ => none
    match c2 with
    | some v => some v
    | none =>
      let c3 :=
        match l with
        | ',' :: r => try3bAux [','] r
        | _ => none
      match c3 with
      | some v => some v
      | none => try3bAux [] l

/-- Step 3b of `minify` (source line 250):
`re.sub(r"(\x03(?:\d?\d?,)?)0(\d[^\d])", r"\1\2", data)`, fuelled scan. -/
def step3bF : Nat → Str → Str
  | _, [] => []
  | 0, l => l
  | fuel + 1, c :: r =>
    if c = '\x03' then
      match try3b r with
      | some (rep, rest) => ('\x03' :: rep) ++ step3bF fuel rest
      | none => c :: step3bF fuel r
    else c :: step3bF fuel r

/-- Step 3b of `minify`: omit a redundant leading zero. -/
def step3b (l : Str) : Str := step3bF l.length l

/-- Does a greedy token chain starting here consume the string exactly to its
end?  This decides a match of `(...)+$`: a shorter token parse only exposes
digits or commas, which cannot start a token, so the chain reaches the end iff
the greedy chain does. -/
def tokensToEndF : Nat → Str → Bool
  | _, [] => false
  | 0, _ => false
  | fuel + 1, l =>
    match tokenAt l with
    | none => false
    | some (_, rest) => rest.isEmpty || tokensToEndF fuel rest

/-- Whether the whole string is one marker run. -/
def tokensToEnd (l : Str) : Bool := tokensToEndF l.length l

/-- Step 4 of `minify` (source line 253):
`re.sub(r"([\x1d\x02\x1f\x0f\x16]|\x03\d?\d?(,\d\d?)?)+$", "", data)` —
remove the trailing marker run, cutting at the leftmost position from which
tokens chain exactly to the end of the line. -/
def step4F : Nat → Str → Str
  | _, [] => []
  | 0, l => l
  | fuel + 1, c :: r => if tokensToEnd (c :: r) then [] else c :: step4F fuel r

/-- Step 4 of `minify`: get rid of trailing codes. -/
def step4 (l : Str) : Str := step4F l.length l

/-- `def minify(data)` (source lines 201-255) on a newline-free line: the four
steps in order. -/
def minify1 (l : Str) : Str := step4 (step3b (step3a (step2 (runSub l))))

/-- `def minify(data)` (source lines 201-255): a multi-line message is split
on `"\n"` and each line minified independently (the recursive calls receive
newline-free pieces and take the single-line path; on newline-free input the
split yields the single piece itself). -/
def minify (l : Str) : Str :=
  List.intercalate ['\n'] ((l.splitOn '\n').map minify1)

/-- Modelled from the spec (section 3): the six-field RenderState.  The colour
slots hold the numeric colour values, so the digit strings `"04"` and `"4"`
denote the same colour (the shortening pass of section 4.4 does not change
numeric values). -/
structure RenderState where
  bold : Bool
  italics : Bool
  underline : Bool
  reverse : Bool
  fg : Option Nat
  bg : Option Nat
deriving DecidableEq, Repr

/-- The all-false/all-None initial RenderState (spec section 3). -/
def RenderState.initial : RenderState := ⟨false, false, false, false, none, none⟩

/-- Numeric value of a digit string. -/
def digitsVal (l : Str) : Nat := l.foldl (fun a c => 10 * a + (c.toNat - '0'.toNat)) 0

/-- Modelled from the spec (section 3): the effect of one marker on the
RenderState — toggles flip their flag, reset clears everything, an empty
colour marker clears both slots, and a colour marker with arguments overwrites
the slots it supplies. -/
def applyTok (st : RenderState) (t : Str) : RenderState :=
  match t with
  | ['\x1d'] => {st with italics := !st.italics}
  | ['\x02'] => {st with bold := !st.bold}
  | ['\x1f'] => {st with underline := !st.underline}
  | ['\x16'] => {st with reverse := !st.reverse}
  | ['\x0f'] => RenderState.initial
  | '\x03' :: tail =>
    match tail.splitOn ',' with
    | [[]] => {st with fg := none, bg := none}
    | [f] => {st with fg := some (digitsVal f)}
    | [f, b] =>
      if f = [] then {st with bg := some (digitsVal b)}
      else {st with fg := some (digitsVal f), bg := some (digitsVal b)}
    | _ => st
  | _ => st

/-- Replay the markers of a piece stream, pairing every literal character with
the RenderState in effect where it is displayed. -/
def renderGo (st : RenderState) : List Piece → List (Char × RenderState)
  | [] => []
  | Piece.lit s :: ps => s.map (fun c => (c, st)) ++ renderGo st ps
  | Piece.tok t :: ps => renderGo (applyTok st t) ps

/-- Modelled from the spec (section 3): the visible text of a message, each
character paired with the RenderState obtained by replaying all markers to its
left from the initial state.  Two messages are visually equivalent iff these
lists agree. -/
def renderedChars (l : Str) : List (Char × RenderState) :=
  renderGo RenderState.initial (tokSplit l)

/-- `int(math.ceil(a / float(b)))` for nonzero `b`: ceiling of the exact
quotient (float rounding ignored; the table sizes in use are far below the
range where binary floats diverge from exact rationals). -/
def intCeilDiv (a b : Int) : Int := -(Int.fdiv (-a) b)

/-- `int(a / b)` for nonzero `b` in Python: float division then truncation
toward zero. -/
def pyTruncDiv (a b : Int) : Int := Int.tdiv a b

/-- `" " * n`: empty for a non-positive count, as in Python. -/
def spacesI (n : Int) : Str := List.replicate n.toNat ' '

/-- `striplen` as a Python int. -/
def striplenI (s : Str) : Int := (striplen s : Int)

/-- Total display width of a row's cells, `sum(striplen(x) for x in row)`. -/
def striplenSum (row : List Str) : Int := (row.map striplenI).sum

/-- `def spacepad(left, right, length)` (source lines 258-261): glue `left`
and `right` with `length - (striplen(left) + striplen(right))` spaces. -/
def spacepad (left right : Str) (length : Int) : Str :=
  left ++ spacesI (length - (striplenI left + striplenI right)) ++ right

/-- The row-building loop of `justifiedtable` (source lines 328-335): `done`
are the finished rows, `cur` is `rows[-1]`; an item is appended to the current
row when `sum(striplen(x) + minsep for x in rows[-1]) + striplen(data)` stays
within `width`, otherwise it starts a new row.  The initial call has
`done = []`, `cur = []`, mirroring `rows = [[]]`. -/
def jtRowsGo (width minsep : Int) : List (List Str) → List Str → List Str → List (List Str)
  | done, cur, [] => done ++ [cur]
  | done, cur, d :: rest =>
    if (cur.foldl (fun a x => a + striplenI x + minsep) 0) + striplenI d ≤ width then
      jtRowsGo width minsep done (cur ++ [d]) rest
    else
      jtRowsGo width minsep (done ++ [cur]) [d] rest

/-- The greedy row partition of `justifiedtable` (source lines 328-335). -/
def jtRows (array : List Str) (width minsep : Int) : List (List Str) :=
  jtRowsGo width minsep [] [] array

/-- The emission of one multi-item row (source lines 337-345):
`sepwidth, spares = divmod(width - rowlength, len(row) - 1)` (Python divmod is
floor division and floor remainder, `Int.fdiv`/`Int.fmod`), then each gap gets
`sepwidth` spaces plus one extra space for the first `spares` gaps. -/
def jtLine (width : Int) (row : List Str) : Str :=
  match row with
  | [] => []
  | x0 :: tail =>
    ((tail.enum).foldl
      (fun acc p =>
        acc ++ spacesI (Int.fdiv (width - striplenSum row) ((row.length : Int) - 1)) ++
          (if (p.1 : Int) < Int.fmod (width - striplenSum row) ((row.length : Int) - 1)
            then [' '] else []) ++ p.2)
      x0)

/-- The per-row emission of `justifiedtable` (source lines 336-347): rows with
more than one item are justified, a singleton row is emitted as its item, and
an empty row is skipped. -/
def rowEmit (width : Int) (row : List Str) : Option Str :=
  if 1 < row.length then some (jtLine width row)
  else
    match row with
    | [x] => some x
    | _ => none

/-- `def justifiedtable(array, width, minsep=3)` (source lines 324-348). -/
def justifiedtable (array : List Str) (width : Int) (minsep : Int) : List Str :=
  (jtRows array width minsep).filterMap (rowEmit width)

/-- Python `max` over a list of naturals; only ever applied to a nonempty
list (Python raises ValueError on an empty one), for which `foldl max 0`
agrees with `max`. -/
def pyMaxNat (l : List Nat) : Nat := l.foldl max 0

/-- `def aligntable(rows, separator=" \x0308⎪\x03 ")` (source lines 351-368):
per-column maximum display widths over the rows having that column, cells
padded to the column width, columns joined with the separator.  An empty
`rows` makes `max(len(i) for i in rows)` raise ValueError, modelled as
`none`. -/
def aligntable (rows : List (List Str)) (separator : Str) : Option (List Str) :=
  if rows.isEmpty then none
  else
    let ncols := pyMaxNat (rows.map List.length)
    let widths := (List.range ncols).map (fun i =>
      pyMaxNat ((rows.filter (fun x => i < x.length)).map (fun x => striplen (x.getD i []))))
    some (rows.map (fun row =>
      List.intercalate separator
        (row.enum.map (fun p =>
          p.2 ++ List.replicate (widths.getD p.1 0 - striplen p.2) ' '))))

/-- The default separator of `aligntable` (source line 351, with its literal
`\x03` bytes). -/
def aligntableSep : Str := str " \x0308⎪\x03 "

/-- `"%.2d" % color` for a nonnegative colour index: decimal digits padded
with zeros to width two. -/
def fmt2 (n : Nat) : Str :=
  if (Nat.repr n).data.length < 2 then '0' :: (Nat.repr n).data else (Nat.repr n).data

/-- `str(n)` for a Python int. -/
def intRepr (n : Int) : Str := (toString n).data

/-- `max(results, key=m)` for the nonempty list `x :: l`: the first element
with the maximal key (Python `max` keeps the earlier element on ties). -/
def maxByM (m : Str → Nat) (x : Str) (l : List Str) : Str :=
  l.foldl (fun acc y => if m y > m acc then y else acc) x

/-- `results.remove(v)`: delete the first occurrence of `v` (always present
where used). -/
def removeFirst (v : Str) : List Str → List Str
  | [] => []
  | x :: r => if x = v then r else x :: removeFirst v r

/-- The size computations of `namedtable` (source lines 272-278 and 284-287),
parameterised by the label measure `m` (the source uses `len`):
`biggest = m(max(results, key=m))`,
`columns = min(len(results), int((size - 2) / (biggest + 3)))`,
`rows = int(math.ceil(len(results) / float(columns)))`.
`none` models the Python exceptions: ValueError from `max` of an empty list,
and ZeroDivisionError from `len(results) / float(0)`. -/
def ntCompute (m : Str → Nat) (results : List Str) (size : Int) : Option (Nat × Int × Int) :=
  match results with
  | [] => none
  | x :: xs =>
    let biggest := m (maxByM m x xs)
    let columns := min (results.length : Int) (pyTruncDiv (size - 2) ((biggest : Int) + 3))
    if columns = 0 then none
    else some (biggest, columns, intCeilDiv (results.length : Int) columns)

/-- The row-cap loop of `namedtable` (source lines 281-287):
`while rows > rowmax:` remove the longest remaining label (first occurrence)
and recompute; the fuel, one more than the list length, always suffices
because each pass removes one element and the empty list errors out first. -/
def ntShrink (m : Str → Nat) (size rm : Int) :
    Nat → List Str → Nat × Int × Int → Option (List Str × Nat × Int × Int)
  | 0, _, _ => none
  | fuel + 1, results, (biggest, columns, rows) =>
    if rows > rm then
      match results with
      | [] => none
      | x :: xs =>
        match ntCompute m (removeFirst (maxByM m x xs) results) size with
        | none => none
        | some v => ntShrink m size rm fuel (removeFirst (maxByM m x xs) results) v
    else some (results, biggest, columns, rows)

/-- Truthiness of the `rowmax` argument: `if rowmax and ...` is taken only
for a non-`None`, nonzero row cap. -/
def rowmaxTruthy : Option Int → Bool
  | none => false
  | some v => v != 0

/-- Python `list.insert(n, x)` for a nonnegative index: positions past the
end append. -/
def pyInsertAt (n : Nat) (x : Char) (l : Str) : Str := l.take n ++ x :: l.drop n

/-- Prepend to the last element of a list of strings (`data[-1] = "\x1f" +
data[-1]`, source line 320 with its literal control byte). -/
def prependLast (pre : Str) : List Str → List Str
  | [] => []
  | [x] => [pre ++ x]
  | x :: rest => x :: prependLast pre rest

/-- The optional row-cap stage of `namedtable` (source lines 279-288): when
`rowmax` is truthy and exceeded, run the shrink loop and set
`rownum = "(first %d rows) " % rows`; otherwise keep everything and an empty
`rownum`. -/
def ntLoop (m : Str → Nat) (results : List Str) (size : Int) (rowmax : Option Int)
    (v : Nat × Int × Int) : Option (List Str × Nat × Int × Int × Str) :=
  if rowmaxTruthy rowmax && decide (v.2.2 > rowmax.getD 0) then
    match ntShrink m size (rowmax.getD 0) (results.length + 1) results v with
    | none => none
    | some (res2, b2, c2, r2) =>
      some (res2, b2, c2, r2, str "(first " ++ intRepr r2 ++ str " rows) ")
  else some (results, v.1, v.2.1, v.2.2, [])

/-- The emission stage of `namedtable` (source lines 266-268 and 290-320),
measure-independent: borders, the header row built by `spacepad` (line 290
contains a literal `\x1f` before the `\x03`), the cell-size adjustment when
the header is wider than the computed row width, the bordered data rows with
the last column right-aligned and others left-aligned, the last-row patch
(insert an `\x1f` into the second-to-last row and close the short last row
with `" ⎪\x03"`), and the final `"\x1f"` prefixed to the last row (line 320,
a literal control byte in the source). -/
def namedtableEmit (header rheader : Str) (color : Nat)
    (st : List Str × Nat × Int × Int × Str) : List Str :=
  match st with
  | (results, biggest, columns, rows, rownum) =>
    let borderLeft := '\x03' :: fmt2 color ++ str "⎢\x03"
    let divider := ' ' :: '\x03' :: fmt2 color ++ (str "⎪\x03" ++ [' '])
    let borderRight := '\x03' :: fmt2 color ++ str "⎥\x03"
    let data0 := spacepad (header ++ '\x1f' :: '\x03' :: fmt2 color ++ rownum) rheader
      (columns * ((biggest : Int) + 3) - 1)
    let cellsize : Int :=
      if columns * ((biggest : Int) + 3) - 1 < striplenI data0 then
        pyTruncDiv (striplenI data0 - 1) columns - 1
      else (biggest : Int)
    let dataRows := (List.range rows.toNat).map (fun i =>
      let line :=
        if results.length > (i + 1) * columns.toNat then
          (results.drop (i * columns.toNat)).take columns.toNat
        else results.drop (i * columns.toNat)
      let padded := line.enum.map (fun p =>
        if (p.1 : Int) + 1 = columns then spacesI (cellsize - striplenI p.2) ++ p.2
        else p.2 ++ spacesI (cellsize - striplenI p.2))
      borderLeft ++ List.intercalate divider padded ++ borderRight)
    let data := data0 :: dataRows
    let data2 :=
      if 2 < data.length ∧ (data.getLastD []).length < (data.getD 1 []).length then
        data.dropLast.dropLast ++
          [pyInsertAt ((data.getLastD []).length - 1) '\x1f' (data.dropLast.getLastD [])] ++
          [(data.getLastD []).take ((data.getLastD []).length - 2) ++ (' ' :: str "⎪\x03")]
      else data
    prependLast ['\x1f'] data2

/-- `def namedtable(results, size=100, rowmax=None, header="", rheader="",
color=12)` (source lines 264-321), parameterised by the measure `m` used for
the widest-label and column-count computations (the source uses raw `len`
there; `striplen` is used for padding in both variants): size computations,
the optional row-cap loop, then the measure-independent emission. -/
def namedtableCore (m : Str → Nat) (results : List Str) (size : Int)
    (rowmax : Option Int) (header rheader : Str) (color : Nat) : Option (List Str) :=
  match ntCompute m results size with
  | none => none
  | some v =>
    match ntLoop m results size rowmax v with
    | none => none
    | some st => some (namedtableEmit header rheader color st)

/-- `def namedtable(...)` (source lines 264-321): the source measures labels
with raw `len` (line 272: `biggest = len(max(results, key=len))`, and the
row-cap loop likewise). -/
def namedtable (results : List Str) (size : Int) (rowmax : Option Int)
    (header rheader : Str) (color : Nat) : Option (List Str) :=
  namedtableCore List.length results size rowmax header rheader color

/-- `namedtable` as the spec describes it (section 4.6: "compute the widest
label ... width accounting always uses display width"): identical to
`namedtable` except that the widest-label and column-count computations (and
the row-cap loop that reuses them) measure labels with `striplen`. -/
def namedtableSpec (results : List Str) (size : Int) (rowmax : Option Int)
    (header rheader : Str) (color : Nat) : Option (List Str) :=
  namedtableCore striplen results size rowmax header rheader color

theorem takeDigits2_append (l : Str) : (takeDigits2 l).1 ++ (takeDigits2 l).2 = l := by
  unfold takeDigits2
  cases l with
  | nil => rfl
  | cons c r =>
    cases r with
    | nil => by_cases h : isDig c <;> simp [h]
    | cons c2 r2 =>
      by_cases h : isDig c <;> by_cases h2 : isDig c2 <;> simp [h, h2]

theorem takeBg_append (l : Str) : (takeBg l).1 ++ (takeBg l).2 = l := by
  unfold takeBg
  match l with
  | [] => rfl
  | [c] =>
    by_cases h : c = ','
    · subst h; rfl
    · simp
  | c :: c2 :: r =>
    by_cases hc : c = ','
    · subst hc
      by_cases h : isDig c2
      · cases r with
        | nil => simp [h]
        | cons c3 r3 => by_cases h3 : isDig c3 <;> simp [h, h3]
      · simp [h]
    · cases c
      simp_all

theorem colorTail_append (l : Str) : (colorTail l).1 ++ (colorTail l).2 = l := by
  unfold colorTail
  rw [List.append_assoc, takeBg_append, takeDigits2_append]

theorem colorTail_length (l : Str) : (colorTail l).2.length ≤ l.length := by
  conv_rhs => rw [← colorTail_append l]
  simp



theorem ircstripF_congr : ∀ (f1 f2 : Nat) (l : Str), l.length ≤ f1 → l.length ≤ f2 →
    ircstripF f1 l = ircstripF f2 l := by
  intro f1
  induction f1 with
  | zero =>
    intro f2 l h1 _
    have : l = [] := List.eq_nil_of_length_eq_zero (Nat.le_zero.mp h1)
    subst this
    cases f2 <;> rfl
  | succ n ih =>
    intro f2 l h1 h2
    cases l with
    | nil => cases f2 <;> rfl
    | cons c r =>
      cases f2 with
      | zero => exact absurd h2 (by simp)
      | succ m =>
        simp only [ircstripF]
        have hr : r.length ≤ n := by simpa using h1
        have hr2 : r.length ≤ m := by simpa using h2
        have hct : (colorTail r).2.length ≤ n := le_trans (colorTail_length r) hr
        have hct2 : (colorTail r).2.length ≤ m := le_trans (colorTail_length r) hr2
        by_cases hc : c = '\x03'
        · simp only [hc, if_pos rfl]
          exact ih m _ hct hct2
        · simp only [if_neg hc]
          by_cases hs : isStripCtl c
          · simp only [if_pos hs]
            exact ih m _ hr hr2
          · simp only [if_neg hs]
            rw [ih m _ hr hr2]

/-- Natural unfolding equation of `ircstrip` on a cons cell. -/
theorem ircstrip_cons (c : Char) (r : Str) :
    ircstrip (c :: r) =
      if c = '\x03' then ircstrip (colorTail r).2
      else if isStripCtl c then ircstrip r
      else c :: ircstrip r := by
  show ircstripF (c :: r).length (c :: r) = _
  simp only [List.length_cons, ircstripF]
  by_cases hc : c = '\x03'
  · simp only [hc, if_pos rfl]
    exact ircstripF_congr _ _ _ (colorTail_length r) le_rfl
  · simp only [if_neg hc]
    by_cases hs : isStripCtl c
    · simp only [if_pos hs]
      exact ircstripF_congr _ _ _ le_rfl le_rfl
    · simp only [if_neg hs]
      rfl

theorem ircstrip_nil : ircstrip [] = [] := rfl

theorem overline_notMem_x03 : ∀ s : Str, '\u0305' ∉ ircstrip s := by
  have key : ∀ (fuel : Nat) (l : Str), l.length ≤ fuel → '\u0305' ∉ ircstripF fuel l := by
    intro fuel
    induction fuel with
    | zero =>
      intro l h
      have : l = [] := List.eq_nil_of_length_eq_zero (Nat.le_zero.mp h)
      subst this
      simp [ircstripF]
    | succ n ih =>
      intro l h
      cases l with
      | nil => simp [ircstripF]
      | cons c r =>
        have hr : r.length ≤ n := by simpa using h
        simp only [ircstripF]
        by_cases hc : c = '\x03'
        · simp only [hc, if_pos rfl]
          exact ih _ (le_trans (colorTail_length r) hr)
        · simp only [if_neg hc]
          by_cases hs : isStripCtl c
          · simp only [hs, if_pos rfl]
            exact ih _ hr
          · simp only [hs]
            intro hmem
            rcases List.mem_cons.mp (by simpa using hmem) with h1 | h1
            · subst h1
              simp [isStripCtl] at hs
            · exact ih _ hr h1
  intro s
  exact key s.length s le_rfl

theorem striplen_overline (s : Str) (h : '\x03' ∉ s) :
    striplen (overline s) = striplen s := by
  induction s with
  | nil => rfl
  | cons c rest ih =>
    have hc3 : c ≠ '\x03' := fun hc => h (by simp [hc])
    have hrest : '\x03' ∉ rest := fun hm => h (List.mem_cons_of_mem _ hm)
    have step : ircstrip (overline (c :: rest)) = ircstrip (c :: overline rest) ∨
        (rest = [] ∧ ircstrip (overline (c :: rest)) = ircstrip [c]) := by
      cases rest with
      | nil =>
        right
        refine ⟨rfl, ?_⟩
        show ircstrip ['\u0305', c] = ircstrip [c]
        rw [show (['\u0305', c] : Str) = '\u0305' :: [c] from rfl, ircstrip_cons]
        simp [isStripCtl]
      | cons d tail =>
        left
        show ircstrip ('\u0305' :: c :: '\u0305' :: List.intersperse '\u0305' (d :: tail)) = _
        rw [ircstrip_cons]
        simp [isStripCtl]
        rfl
    unfold striplen at *
    rcases step with hstep | ⟨hnil, hstep⟩
    · rw [hstep, ircstrip_cons, ircstrip_cons (r := rest)]
      simp only [if_neg hc3]
      by_cases hs : isStripCtl c
      · simpa [hs] using ih hrest
      · simpa [hs] using ih hrest
    · subst hnil
      rw [hstep]

/-- The overline-producing codepoint U+0305 is always removed by the width
stripper: a leading occurrence is deleted without affecting the rest. -/
theorem ircstrip_overline_cons (s : Str) : ircstrip ('\u0305' :: s) = ircstrip s := by
  rw [ircstrip_cons]
  simp [isStripCtl]

/-- C10: the width calculator strips the combining-overline codepoint U+0305 in
addition to the section-4.1 marker alphabet: for every string, no occurrence of
U+0305 survives `ircstrip` (so none is counted by `striplen`), a leading
occurrence contributes zero display width, and `overline` (which interleaves
U+0305 into its argument) leaves the display width of marker-free text
unchanged. -/
theorem c10_overline_strip (s : Str) :
    ('\u0305' ∉ ircstrip s) ∧
    (ircstrip ('\u0305' :: s) = ircstrip s) ∧
    (striplen ('\u0305' :: s) = striplen s) ∧
    ('\x03' ∉ s → striplen (overline s) = striplen s) :=
  ⟨overline_notMem_x03 s, ircstrip_overline_cons s,
    by unfold striplen; rw [ircstrip_overline_cons], striplen_overline s⟩

/-- Witness for C10 at a concrete input. -/
theorem c10_overline_strip_witness :
    ('\x03' ∉ str "ab") ∧ striplen (overline (str "ab")) = striplen (str "ab") :=
  ⟨by decide, (c10_overline_strip (str "ab")).2.2.2 (by decide)⟩

/-- The candidate the `join_until` loop builds from the current result and
the next element. -/
def juCandidate (separator : Str) (acc : Option Str) (element : Str) : Str :=
  match acc with
  | none => element
  | some r => r ++ separator ++ element

theorem join_untilGo_cons (separator : Str) (measure : Str → Nat) (c : Nat)
    (acc : Option Str) (e : Str) (q : List Str) :
    join_untilGo separator (some c) measure acc (e :: q) =
      if measure (juCandidate separator acc e) > c then acc
      else join_untilGo separator (some c) measure (some (juCandidate separator acc e)) q := by
  cases acc <;> rfl

theorem join_untilCount_cons (separator : Str) (measure : Str → Nat) (c : Nat)
    (acc : Option Str) (e : Str) (q : List Str) :
    join_untilCount separator (some c) measure acc (e :: q) =
      if measure (juCandidate separator acc e) > c then 0
      else 1 + join_untilCount separator (some c) measure (some (juCandidate separator acc e)) q := by
  cases acc <;> rfl

theorem joinAcc_cons (separator : Str) (acc : Option Str) (e : Str) (q : List Str) :
    joinAcc separator acc (e :: q) =
      joinAcc separator (some (juCandidate separator acc e)) q := by
  cases acc <;> rfl

theorem join_untilGo_bound (separator : Str) (measure : Str → Nat) (c : Nat) :
    ∀ (parts : List Str) (acc : Option Str),
      (∀ r, acc = some r → measure r ≤ c) →
      ∀ r, join_untilGo separator (some c) measure acc parts = some r → measure r ≤ c := by
  intro parts
  induction parts with
  | nil =>
    intro acc hacc r hr
    exact hacc r hr
  | cons e q ih =>
    intro acc hacc r hr
    rw [join_untilGo_cons] at hr
    by_cases hb : measure (juCandidate separator acc e) > c
    · rw [if_pos hb] at hr
      exact hacc r hr
    · rw [if_neg hb] at hr
      refine ih _ ?_ r hr
      intro r2 hr2
      rw [Option.some.injEq] at hr2
      subst hr2
      exact Nat.le_of_not_lt hb

theorem join_untilGo_take (separator : Str) (measure : Str → Nat) (c : Nat) :
    ∀ (parts : List Str) (acc : Option Str),
      join_untilGo separator (some c) measure acc parts =
        joinAcc separator acc
          (parts.take (join_untilCount separator (some c) measure acc parts)) := by
  intro parts
  induction parts with
  | nil =>
    intro acc
    simp only [join_untilCount, List.take_nil]
    cases acc <;> rfl
  | cons e q ih =>
    intro acc
    rw [join_untilGo_cons, join_untilCount_cons]
    by_cases hb : measure (juCandidate separator acc e) > c
    · rw [if_pos hb, if_pos hb]
      simp only [List.take_zero]
      cases acc <;> rfl
    · rw [if_neg hb, if_neg hb, ih]
      rw [Nat.add_comm, List.take_succ_cons, joinAcc_cons]

theorem join_untilCount_mono (separator : Str) (measure : Str → Nat) (c : Nat) :
    ∀ (parts : List Str) (acc : Option Str) (x : Str),
      join_untilCount separator (some c) measure acc parts ≤
        join_untilCount separator (some c) measure acc (parts ++ [x]) := by
  intro parts
  induction parts with
  | nil => intro acc x; exact Nat.zero_le _
  | cons e q ih =>
    intro acc x
    rw [List.cons_append, join_untilCount_cons, join_untilCount_cons]
    by_cases hb : measure (juCandidate separator acc e) > c
    · rw [if_pos hb, if_pos hb]
    · rw [if_neg hb, if_neg hb]
      exact Nat.add_le_add_left (ih _ x) 1

/-- C7: for every fixed separator, measure and ceiling, `join_until` never
returns a result whose measure exceeds the ceiling; the returned value is the
intercalation of the accepted prefix of `parts`; and appending one more
element to `parts` never shrinks the accepted prefix. -/
theorem c7_join_until_monotone (separator : Str) (measure : Str → Nat) (c : Nat)
    (parts : List Str) (x : Str) :
    (∀ r, join_until separator parts (some c) measure = some r → measure r ≤ c)
    ∧ join_until separator parts (some c) measure =
        joinParts separator (parts.take (acceptedCount separator measure c parts))
    ∧ acceptedCount separator measure c parts ≤
        acceptedCount separator measure c (parts ++ [x]) :=
  ⟨fun r hr => join_untilGo_bound separator measure c parts none (by intro r2 h; cases h) r hr,
   join_untilGo_take separator measure c parts none,
   join_untilCount_mono separator measure c parts none x⟩

/-- Witness for C7 at a concrete input. -/
theorem c7_join_until_monotone_witness :
    join_until (str ", ") [str "ab", str "cd"] (some 5) List.length = some (str "ab")
    ∧ (str "ab").length ≤ 5 :=
  ⟨by decide,
   (c7_join_until_monotone (str ", ") List.length 5 [str "ab", str "cd"] (str "zz")).1
     (str "ab") (by decide)⟩

/-- C6 counterexample: called without an explicit measure (the source default
`measure=len`), `join_until` rejects a one-element list whose raw length
exceeds the ceiling even though its display width does not, while the
displayWidth measure the claim asserts would accept it. -/
theorem c6_counterexample :
    join_until_default [] [str "\x02a"] (some 1) = none
    ∧ join_until [] [str "\x02a"] (some 1) striplen = some (str "\x02a") := by
  constructor
  · decide
  · decide

/-- C6 amended: when `join_until` is called without an explicit measure
argument, the measure used for the ceiling check is the raw codepoint count
`len` (not `striplen`); consequently any returned result is bounded in raw
length by the ceiling. -/
theorem c6_default_measure_raw (separator : Str) (parts : List Str)
    (ceiling : Option Nat) :
    join_until_default separator parts ceiling =
      join_until separator parts ceiling List.length
    ∧ ∀ c r, join_until_default separator parts (some c) = some r → r.length ≤ c :=
  ⟨rfl, fun c r hr =>
    join_untilGo_bound separator List.length c parts none (by intro r2 h; cases h) r hr⟩

/-- Witness for C6 at a concrete input. -/
theorem c6_default_measure_raw_witness :
    join_until_default (str ", ") [str "ab"] (some 5) = some (str "ab")
    ∧ (str "ab").length ≤ 5 :=
  ⟨by decide,
   (c6_default_measure_raw (str ", ") [str "ab"] (some 5)).2 5 (str "ab") (by decide)⟩

/-- C1: `minify` does not preserve the RenderState replay.  On
`"\x02a\x0fb"` (bold on, text, reset, text) step 2 of `minify` drops the
reset because a toggle is active (and its toggle dictionary is never cleared
by a reset), so the minified string `"\x02ab"` renders `b` bold while the
original renders `b` with the all-clear state. -/
theorem c1_render_state_not_preserved :
    minify (str "\x02a\x0fb") = str "\x02ab"
    ∧ renderedChars (str "\x02a\x0fb") ≠ renderedChars (minify (str "\x02a\x0fb")) := by
  constructor
  · decide
  · decide

/-- C2 counterexample: `minify` is not idempotent.  `control_reduce` turns the
run `"\x03\x02\x02"` into the bare colour token `"\x03"`, which is then
adjacent to the literal digit `0`; on the second pass the retokenized
`"\x030"` run merges with the following reset and collapses. -/
theorem c2_counterexample :
    minify (str "\x03\x02\x020\x0f0") = str "\x030\x0f0"
    ∧ minify (minify (str "\x03\x02\x020\x0f0")) = str "\x0f0"
    ∧ minify (minify (str "\x03\x02\x020\x0f0")) ≠ minify (str "\x03\x02\x020\x0f0") := by
  refine ⟨by decide, by decide, by decide⟩

/-- C3 counterexample: the run italics-then-bold canonicalizes to
bold-then-italics, not to the claimed order italics-first. -/
theorem c3_counterexample :
    control_reduce [ITALICS, BOLD] = [BOLD, ITALICS]
    ∧ control_reduce [ITALICS, BOLD] ≠ [ITALICS, BOLD] := by
  constructor
  · decide
  · decide

/-- C8 counterexample: the run `"\x02\x0f\x02"` contains the bold toggle
exactly twice, yet its canonical form `"\x0f\x02"` contains one instance,
because everything before the last reset is discarded first. -/
theorem c8_counterexample :
    List.count BOLD [BOLD, RESET, BOLD] = 2
    ∧ List.count BOLD (control_reduce [BOLD, RESET, BOLD]) = 1 := by
  constructor
  · decide
  · decide

theorem insertSorted_perm (c : Char) (l : Str) : (insertSorted c l).Perm (c :: l) := by
  induction l with
  | nil => exact List.Perm.refl _
  | cons d r ih =>
    rw [insertSorted]
    by_cases h : c ≤ d
    · rw [if_pos h]
    · rw [if_neg h]
      exact (ih.cons d).trans (List.Perm.swap c d r)

theorem insSort_perm (l : Str) : (insSort l).Perm l := by
  induction l with
  | nil => exact List.Perm.refl _
  | cons c r ih =>
    rw [insSort]
    exact (insertSorted_perm c (insSort r)).trans (ih.cons c)

theorem insertSorted_sorted (c : Char) (l : Str) (h : List.Sorted (· ≤ ·) l) :
    List.Sorted (· ≤ ·) (insertSorted c l) := by
  induction l with
  | nil => simp [insertSorted]
  | cons d r ih =>
    rw [insertSorted]
    rw [List.sorted_cons] at h
    by_cases hc : c ≤ d
    · rw [if_pos hc, List.sorted_cons]
      refine ⟨?_, List.sorted_cons.mpr h⟩
      intro b hb
      rcases List.mem_cons.mp hb with hb | hb
      · exact hb ▸ hc
      · exact le_trans hc (h.1 b hb)
    · rw [if_neg hc, List.sorted_cons]
      refine ⟨?_, ih h.2⟩
      intro b hb
      have := (insertSorted_perm c r).mem_iff.mp hb
      rcases List.mem_cons.mp this with hb2 | hb2
      · exact hb2 ▸ le_of_not_le hc
      · exact h.1 b hb2

theorem insSort_sorted (l : Str) : List.Sorted (· ≤ ·) (insSort l) := by
  induction l with
  | nil => simp [insSort]
  | cons c r ih => exact insertSorted_sorted c (insSort r) ih

theorem rtp_sublist (l : Str) : (rtp l).Sublist l := by
  induction l using rtp.induct with
  | case1 c1 c2 rest h ih =>
    rw [rtp, if_pos h]
    exact ih.trans ((List.sublist_cons_self c2 rest).trans (List.sublist_cons_self c1 _))
  | case2 c1 c2 rest h ih =>
    rw [rtp, if_neg h]
    exact ih.cons₂ c1
  | case3 l h =>
    cases l with
    | nil => exact List.Sublist.refl _
    | cons c r =>
      cases r with
      | nil => exact List.Sublist.refl _
      | cons c2 rest => exact absurd rfl (h c c2 rest)

theorem isToggle_not_isDig (c : Char) (h : isToggle c) : isDig c = false := by
  rcases Bool.or_eq_true_iff.mp h with h1 | h1
  · rcases Bool.or_eq_true_iff.mp h1 with h2 | h2
    · rcases Bool.or_eq_true_iff.mp h2 with h3 | h3
      · rw [show c = '\x1d' from by simpa using h3]; decide
      · rw [show c = '\x02' from by simpa using h3]; decide
    · rw [show c = '\x1f' from by simpa using h2]; decide
  · rw [show c = '\x16' from by simpa using h1]; decide

theorem isToggle_shape (c : Char) (h : isToggle c) :
    c = '\x1d' ∨ c = '\x02' ∨ c = '\x1f' ∨ c = '\x16' := by
  rcases Bool.or_eq_true_iff.mp h with h1 | h1
  · rcases Bool.or_eq_true_iff.mp h1 with h2 | h2
    · rcases Bool.or_eq_true_iff.mp h2 with h3 | h3
      · exact Or.inl (by simpa using h3)
      · exact Or.inr (Or.inl (by simpa using h3))
    · exact Or.inr (Or.inr (Or.inl (by simpa using h2)))
  · exact Or.inr (Or.inr (Or.inr (by simpa using h1)))

theorem takeDigits2_chars (l : Str) : ∀ c ∈ (takeDigits2 l).1, isDig c := by
  unfold takeDigits2
  cases l with
  | nil => simp
  | cons c r =>
    cases r with
    | nil =>
      by_cases h : isDig c
      · simp [h]
      · simp [h]
    | cons c2 r2 =>
      by_cases h : isDig c
      · by_cases h2 : isDig c2
        · simp only [if_pos h, if_pos h2]
          intro x hx
          rcases List.mem_cons.mp hx with hx | hx
          · exact hx ▸ h
          · rcases List.mem_singleton.mp (by simpa using hx) with hx2
            exact hx2 ▸ h2
        · simp only [if_pos h, if_neg h2]
          intro x hx
          rcases List.mem_singleton.mp hx with hx2
          exact hx2 ▸ h
      · simp [h]

theorem takeBg_chars (l : Str) : ∀ c ∈ (takeBg l).1, isDig c ∨ c = ',' := by
  unfold takeBg
  match l with
  | [] => simp
  | [c] =>
    by_cases h : c = ','
    · subst h; simp
    · simp
  | c :: c2 :: r =>
    by_cases hc : c = ','
    · subst hc
      by_cases h : isDig c2
      · cases r with
        | nil =>
          simp only [if_pos h]
          intro x hx
          rcases List.mem_cons.mp hx with hx | hx
          · exact Or.inr hx
          · exact Or.inl (List.mem_singleton.mp hx ▸ h)
        | cons c3 r3 =>
          by_cases h3 : isDig c3
          · simp only [if_pos h, if_pos h3]
            intro x hx
            rcases List.mem_cons.mp hx with hx | hx
            · exact Or.inr hx
            rcases List.mem_cons.mp hx with hx | hx
            · exact Or.inl (hx ▸ h)
            · exact Or.inl (List.mem_singleton.mp hx ▸ h3)
          · simp only [if_pos h, if_neg h3]
            intro x hx
            rcases List.mem_cons.mp hx with hx | hx
            · exact Or.inr hx
            · exact Or.inl (List.mem_singleton.mp hx ▸ h)
      · simp [h]
    · cases c
      simp_all

theorem colorTail_chars (l : Str) : ∀ c ∈ (colorTail l).1, isDig c ∨ c = ',' := by
  unfold colorTail
  intro c hc
  rcases List.mem_append.mp hc with h | h
  · exact Or.inl (takeDigits2_chars l c h)
  · exact takeBg_chars _ c h

theorem colorSplitF_matches (fuel : Nat) : ∀ (l : Str) (m : Str),
    m ∈ (colorSplitF fuel l).1 →
    ∃ tl, m = '\x03' :: tl ∧ ∀ c ∈ tl, isDig c ∨ c = ',' := by
  induction fuel with
  | zero =>
    intro l m hm
    cases l with
    | nil => simp [colorSplitF] at hm
    | cons c r => simp [colorSplitF] at hm
  | succ n ih =>
    intro l m hm
    cases l with
    | nil => simp [colorSplitF] at hm
    | cons c r =>
      simp only [colorSplitF] at hm
      by_cases hc : c = '\x03'
      · rw [if_pos hc] at hm
        rcases List.mem_cons.mp hm with hm | hm
        · exact ⟨(colorTail r).1, hm, colorTail_chars r⟩
        · exact ih _ m hm
      · rw [if_neg hc] at hm
        exact ih _ m hm

theorem colorSplitF_residual_count (t : Char) (ht : isDig t = false) (ht2 : t ≠ ',')
    (ht3 : t ≠ '\x03') :
    ∀ (fuel : Nat) (l : Str), l.length ≤ fuel →
      List.count t (colorSplitF fuel l).2 = List.count t l := by
  intro fuel
  induction fuel with
  | zero =>
    intro l h
    have : l = [] := List.eq_nil_of_length_eq_zero (Nat.le_zero.mp h)
    subst this
    rfl
  | succ n ih =>
    intro l h
    cases l with
    | nil => rfl
    | cons c r =>
      have hr : r.length ≤ n := by simpa using h
      simp only [colorSplitF]
      by_cases hc : c = '\x03'
      · rw [if_pos hc]
        have h1 : List.count t (colorSplitF n (colorTail r).2).2 =
            List.count t (colorTail r).2 :=
          ih _ (le_trans (colorTail_length r) hr)
        have h2 : List.count t (colorTail r).1 = 0 := by
          rw [List.count_eq_zero]
          intro hmem
          rcases colorTail_chars r t hmem with hd | hd
          · rw [hd] at ht; cases ht
          · exact ht2 hd
        have h3 : List.count t r = List.count t (colorTail r).2 := by
          conv_lhs => rw [← colorTail_append r]
          rw [List.count_append, h2, Nat.zero_add]
        have h4 : List.count t (c :: r) = List.count t r := by
          subst hc
          rw [List.count_cons]
          have : ¬('\x03' == t) = true := by
            intro hbeq
            exact ht3 (beq_iff_eq.mp hbeq).symm
          rw [if_neg this, Nat.add_zero]
        rw [h1, ← h3, h4]
      · rw [if_neg hc]
        simp only [List.count_cons]
        rw [ih _ hr]

theorem mem_splitFirstComma_left {l : Str} {c : Char} (h : c ∈ (splitFirstComma l).1) :
    c ∈ l :=
  List.Sublist.mem h (List.takeWhile_sublist _)

theorem mem_splitFirstComma_right {l : Str} {c : Char} (h : c ∈ (splitFirstComma l).2) :
    c ∈ l := by
  unfold splitFirstComma at h
  have h2 := List.mem_of_mem_drop h
  exact List.Sublist.mem h2 (List.dropWhile_sublist _)


/-- Invariant carried by `foldColor`: both colour slots, when set, hold only
digits and commas. -/
def goodSlots (acc : Option Str × Option Str) : Prop :=
  (∀ s, acc.1 = some s → ∀ c ∈ s, isDig c ∨ c = ',') ∧
  (∀ s, acc.2 = some s → ∀ c ∈ s, isDig c ∨ c = ',')

theorem foldColor_good (acc : Option Str × Option Str) (i : Str)
    (hacc : goodSlots acc) (hi : ∀ c ∈ i, isDig c ∨ c = ',') :
    goodSlots (foldColor acc i) := by
  unfold foldColor
  by_cases h0 : i = []
  · rw [if_pos h0]
    exact ⟨(fun s hs => nomatch hs), (fun s hs => nomatch hs)⟩
  · rw [if_neg h0]
    by_cases h1 : ',' ∉ i
    · rw [if_pos h1]
      refine ⟨fun s hs => ?_, hacc.2⟩
      rw [Option.some.injEq] at hs
      subst hs
      exact hi
    · rw [if_neg h1]
      by_cases h2 : i.headD ' ' = ','
      · rw [if_pos h2]
        refine ⟨hacc.1, fun s hs => ?_⟩
        rw [Option.some.injEq] at hs
        subst hs
        intro c hc
        exact hi c (List.mem_of_mem_drop hc)
      · rw [if_neg h2]
        constructor
        · intro s hs c hc
          rw [Option.some.injEq] at hs
          subst hs
          exact hi c (mem_splitFirstComma_left hc)
        · intro s hs c hc
          rw [Option.some.injEq] at hs
          subst hs
          exact hi c (mem_splitFirstComma_right hc)

theorem foldl_foldColor_good (tails : List Str)
    (htails : ∀ tl ∈ tails, ∀ c ∈ tl, isDig c ∨ c = ',') :
    ∀ acc, goodSlots acc → goodSlots (tails.foldl foldColor acc) := by
  induction tails with
  | nil => intro acc h; exact h
  | cons tl rest ih =>
    intro acc h
    rw [List.foldl_cons]
    exact ih (fun x hx => htails x (List.mem_cons_of_mem _ hx)) _
      (foldColor_good acc tl h (htails tl (List.mem_cons_self _ _)))

theorem mergeColorsAux_chars (acc : Option Str × Option Str) (hacc : goodSlots acc) :
    ∀ c ∈ mergeColorsAux acc, c = '\x03' ∨ isDig c ∨ c = ',' := by
  rcases acc with ⟨_ | f, _ | b⟩
  · intro c hc
    rcases List.mem_singleton.mp hc with rfl
    exact Or.inl rfl
  · intro c hc
    rcases List.mem_cons.mp hc with rfl | hc
    · exact Or.inl rfl
    rcases List.mem_cons.mp hc with rfl | hc
    · exact Or.inr (Or.inr rfl)
    · exact Or.inr (hacc.2 b rfl c hc)
  · intro c hc
    rcases List.mem_cons.mp hc with rfl | hc
    · exact Or.inl rfl
    · exact Or.inr (hacc.1 f rfl c hc)
  · intro c hc
    rcases List.mem_append.mp hc with hc | hc
    · rcases List.mem_cons.mp hc with rfl | hc
      · exact Or.inl rfl
      · exact Or.inr (hacc.1 f rfl c hc)
    · rcases List.mem_cons.mp hc with rfl | hc
      · exact Or.inr (Or.inr rfl)
      · exact Or.inr (hacc.2 b rfl c hc)

theorem mergeColors_chars (colors : List Str)
    (h : ∀ m ∈ colors, ∃ tl, m = '\x03' :: tl ∧ ∀ c ∈ tl, isDig c ∨ c = ',') :
    ∀ c ∈ mergeColors colors, c = '\x03' ∨ isDig c ∨ c = ',' := by
  have htails : ∀ tl ∈ colors.map (fun i => i.drop 1), ∀ c ∈ tl, isDig c ∨ c = ',' := by
    intro tl htl c hc
    rcases List.mem_map.mp htl with ⟨m, hm, hdrop⟩
    rcases h m hm with ⟨tl2, hm2, hgood⟩
    subst hm2
    rw [← hdrop] at hc
    exact hgood c hc
  exact mergeColorsAux_chars _
    (foldl_foldColor_good _ htails (none, none)
      ⟨(fun s hs => nomatch hs), (fun s hs => nomatch hs)⟩)

theorem rtp_count_sorted (t : Char) (ht : isToggle t) :
    ∀ l : Str, List.Sorted (· ≤ ·) l →
      List.count t (rtp l) = List.count t l % 2 := by
  intro l
  induction l using rtp.induct with
  | case1 c1 c2 rest h ih =>
    intro hs
    rw [rtp, if_pos h]
    rw [Bool.and_eq_true, decide_eq_true_eq] at h
    obtain ⟨rfl, -⟩ := h
    have hrest : List.Sorted (· ≤ ·) rest :=
      (List.sorted_cons.mp ((List.sorted_cons.mp hs).2)).2
    rw [ih hrest]
    by_cases htc : t = c1
    · subst htc
      simp [List.count_cons]
      omega
    · have hb : (c1 == t) = false := beq_eq_false_iff_ne.mpr (fun he => htc he.symm)
      simp [List.count_cons, hb]
  | case2 c1 c2 rest h ih =>
    intro hs
    rw [rtp, if_neg h]
    have htail : List.Sorted (· ≤ ·) (c2 :: rest) := (List.sorted_cons.mp hs).2
    by_cases htc : t = c1
    · subst htc
      have hne : t ≠ c2 := by
        intro he
        apply h
        rw [Bool.and_eq_true, decide_eq_true_eq]
        exact ⟨he, ht⟩
      have hzero : List.count t (c2 :: rest) = 0 := by
        rw [List.count_eq_zero]
        intro hmem
        have hle : t ≤ c2 := (List.sorted_cons.mp hs).1 c2 (List.mem_cons_self _ _)
        have hlt : t < c2 := lt_of_le_of_ne hle hne
        rcases List.mem_cons.mp hmem with rfl | hmem2
        · exact absurd rfl (ne_of_lt hlt)
        · have := List.rel_of_sorted_cons htail t hmem2
          exact absurd rfl (ne_of_lt (lt_of_lt_of_le hlt this))
      rw [List.count_cons, List.count_cons, ih htail, hzero]
      simp
    · have hb : (c1 == t) = false := beq_eq_false_iff_ne.mpr (fun he => htc he.symm)
      rw [List.count_cons, List.count_cons, ih htail, hb]
      simp
  | case3 l h =>
    intro _
    cases l with
    | nil => rfl
    | cons c r =>
      cases r with
      | nil =>
        show List.count t [c] = List.count t [c] % 2
        have : List.count t [c] ≤ 1 := by
          rw [List.count_singleton]
          split <;> omega
        omega
      | cons c2 rest => exact absurd rfl (h c c2 rest)

theorem count_toggle_colorPart (u : Str) (t : Char) (ht : isToggle t) :
    List.count t
      (if (colorSplit u).1.isEmpty then ([] : Str) else mergeColors (colorSplit u).1) = 0 := by
  have htd : isDig t = false := isToggle_not_isDig t ht
  have htc : t ≠ ',' := by
    rcases isToggle_shape t ht with rfl | rfl | rfl | rfl <;> decide
  have htx : t ≠ '\x03' := by
    rcases isToggle_shape t ht with rfl | rfl | rfl | rfl <;> decide
  by_cases he : (colorSplit u).1.isEmpty
  · rw [if_pos he]; rfl
  · rw [if_neg he]
    rw [List.count_eq_zero]
    intro hmem
    rcases mergeColors_chars (colorSplit u).1
        (fun m hm => colorSplitF_matches u.length u m hm) t hmem with h1 | h1 | h1
    · exact htx h1
    · rw [h1] at htd; cases htd
    · exact htc h1

theorem count_control_reduce_mod (s : Str) (t : Char) (ht : isToggle t)
    (hr : '\x0f' ∉ s) :
    List.count t (control_reduce s) = List.count t s % 2 := by
  have htd : isDig t = false := isToggle_not_isDig t ht
  have htc : t ≠ ',' := by
    rcases isToggle_shape t ht with rfl | rfl | rfl | rfl <;> decide
  have htx : t ≠ '\x03' := by
    rcases isToggle_shape t ht with rfl | rfl | rfl | rfl <;> decide
  simp only [control_reduce]
  rw [if_neg hr, if_neg hr]
  rw [List.nil_append, List.count_append, count_toggle_colorPart s t ht]
  rw [Nat.zero_add]
  rw [rtp_count_sorted t ht _ (insSort_sorted _)]
  rw [(insSort_perm _).count_eq]
  simp only [colorSplit]
  rw [colorSplitF_residual_count t htd htc htx s.length s le_rfl]

theorem filter_isToggle_colorPart (u : Str) :
    (if (colorSplit u).1.isEmpty then ([] : Str)
      else mergeColors (colorSplit u).1).filter isToggle = [] := by
  by_cases he : (colorSplit u).1.isEmpty
  · rw [if_pos he]; rfl
  · rw [if_neg he]
    rw [List.filter_eq_nil_iff]
    intro c hc htog
    rcases mergeColors_chars (colorSplit u).1
        (fun m hm => colorSplitF_matches u.length u m hm) c hc with hd | hd | hd
    · rw [hd] at htog
      exact absurd htog (by decide)
    · rw [isToggle_not_isDig c htog] at hd
      cases hd
    · rw [hd] at htog
      exact absurd htog (by decide)

/-- C3 amended: in the canonical form of any marker run the surviving toggle
markers are emitted in ascending control-byte order — Bold (`\x02`),
Reverse (`\x16`), Italics (`\x1d`), Underline (`\x1f`) — regardless of their
order in the source run (the source sorts the non-colour characters before
re-emitting them). -/
theorem c3_canonical_order (s : Str) :
    List.Sorted (· ≤ ·) ((control_reduce s).filter isToggle)
    ∧ BOLD < REVERSE ∧ REVERSE < ITALICS ∧ ITALICS < UNDERLINE := by
  refine ⟨?_, by decide, by decide, by decide⟩
  simp only [control_reduce]
  rw [List.filter_append, List.filter_append, filter_isToggle_colorPart]
  have h1 : ((if '\x0f' ∈ s then ['\x0f'] else []).filter isToggle : Str) = [] := by
    by_cases hb : '\x0f' ∈ s
    · rw [if_pos hb]; rfl
    · rw [if_neg hb]; rfl
  rw [h1, List.nil_append, List.nil_append]
  exact List.Pairwise.sublist ((List.filter_sublist _).trans (rtp_sublist _))
    (insSort_sorted _)

/-- C8 amended: for every marker run containing no Reset marker, a toggle
occurring exactly twice is absent from the canonical form, and a toggle
occurring exactly three times survives as exactly one instance (with a Reset
in the run only the occurrences after the last Reset count, as the
counterexample shows). -/
theorem c8_toggle_cancellation (s : Str) (t : Char) (ht : isToggle t)
    (hr : '\x0f' ∉ s) :
    (List.count t s = 2 → List.count t (control_reduce s) = 0)
    ∧ (List.count t s = 3 → List.count t (control_reduce s) = 1) := by
  have key := count_control_reduce_mod s t ht hr
  constructor
  · intro h
    rw [key, h]
  · intro h
    rw [key, h]

/-- Witness for C8 at a concrete input. -/
theorem c8_toggle_cancellation_witness :
    List.count BOLD [BOLD, ITALICS, BOLD] = 2
    ∧ List.count BOLD (control_reduce [BOLD, ITALICS, BOLD]) = 0 :=
  ⟨by decide,
   (c8_toggle_cancellation [BOLD, ITALICS, BOLD] BOLD (by decide) (by decide)).1
     (by decide)⟩

theorem tokenAt_plain (c : Char) (r : Str) (h : isPlain c) : tokenAt (c :: r) = none := by
  unfold isPlain at h
  rw [Bool.not_eq_eq_eq_not, Bool.not_true, Bool.or_eq_false_iff] at h
  simp only [tokenAt]
  rw [if_neg (by rw [h.1]; exact Bool.false_ne_true)]
  rw [if_neg (of_decide_eq_false h.2)]

theorem takeRun_none (l : Str) (h : tokenAt l = none) : takeRun l = none := by
  cases l with
  | nil => rfl
  | cons c r =>
    show takeRunF (r.length + 1) (c :: r) = none
    simp only [takeRunF, h]

theorem runSubF_plain : ∀ (fuel : Nat) (l : Str), (∀ c ∈ l, isPlain c) →
    runSubF fuel l = l := by
  intro fuel
  induction fuel with
  | zero =>
    intro l _
    cases l <;> rfl
  | succ n ih =>
    intro l h
    cases l with
    | nil => rfl
    | cons c r =>
      simp only [runSubF, takeRun_none _ (tokenAt_plain c r (h c (List.mem_cons_self _ _)))]
      rw [ih r (fun x hx => h x (List.mem_cons_of_mem _ hx))]

theorem tokSplitF_plain : ∀ (fuel : Nat) (l : Str), l.length ≤ fuel →
    (∀ c ∈ l, isPlain c) → l ≠ [] → tokSplitF fuel l = [Piece.lit l] := by
  intro fuel
  induction fuel with
  | zero =>
    intro l hlen _ hne
    exact absurd (List.eq_nil_of_length_eq_zero (Nat.le_zero.mp hlen)) hne
  | succ n ih =>
    intro l hlen h hne
    cases l with
    | nil => exact absurd rfl hne
    | cons c r =>
      have htok := tokenAt_plain c r (h c (List.mem_cons_self _ _))
      cases r with
      | nil =>
        have hnil : tokSplitF n [] = [] := by cases n <;> rfl
        simp only [tokSplitF, htok, hnil]
      | cons c2 r2 =>
        simp only [tokSplitF, htok]
        rw [ih (c2 :: r2) (by simpa using hlen)
          (fun x hx => h x (List.mem_cons_of_mem _ hx)) (by simp)]

theorem step2_plain (l : Str) (h : ∀ c ∈ l, isPlain c) : step2 l = l := by
  cases l with
  | nil => rfl
  | cons c r =>
    unfold step2
    show List.flatten (step2Go (none, none) ⟨false, false, false, false⟩
      (tokSplitF (c :: r).length (c :: r))) = c :: r
    rw [tokSplitF_plain (c :: r).length (c :: r) le_rfl h (by simp)]
    simp [step2Go]

theorem step3a_plain (l : Str) (h : ∀ c ∈ l, c ≠ '\x03') : step3a l = l := by
  induction l with
  | nil => rfl
  | cons c r ih =>
    have hc : c ≠ '\x03' := h c (List.mem_cons_self _ _)
    have hstep : step3a (c :: r) = c :: step3a r := by
      rw [step3a.eq_def]
      split
      · rename_i heq
        exact absurd heq (by simp)
      · rename_i heq
        rw [List.cons.injEq] at heq
        exact absurd heq.1 hc
      · rename_i heq
        rw [List.cons.injEq] at heq
        rw [heq.1, heq.2]
    rw [hstep, ih (fun x hx => h x (List.mem_cons_of_mem _ hx))]

theorem step3bF_plain : ∀ (fuel : Nat) (l : Str), (∀ c ∈ l, c ≠ '\x03') →
    step3bF fuel l = l := by
  intro fuel
  induction fuel with
  | zero =>
    intro l _
    cases l <;> rfl
  | succ n ih =>
    intro l h
    cases l with
    | nil => rfl
    | cons c r =>
      unfold step3bF
      rw [if_neg (h c (List.mem_cons_self _ _))]
      rw [ih r (fun x hx => h x (List.mem_cons_of_mem _ hx))]

theorem tokensToEnd_plain (c : Char) (r : Str) (h : isPlain c) :
    tokensToEnd (c :: r) = false := by
  show tokensToEndF (r.length + 1) (c :: r) = false
  unfold tokensToEndF
  rw [tokenAt_plain c r h]

theorem step4F_plain : ∀ (fuel : Nat) (l : Str), (∀ c ∈ l, isPlain c) →
    step4F fuel l = l := by
  intro fuel
  induction fuel with
  | zero =>
    intro l _
    cases l <;> rfl
  | succ n ih =>
    intro l h
    cases l with
    | nil => rfl
    | cons c r =>
      unfold step4F
      rw [tokensToEnd_plain c r (h c (List.mem_cons_self _ _))]
      rw [if_neg (by exact Bool.false_ne_true)]
      rw [ih r (fun x hx => h x (List.mem_cons_of_mem _ hx))]

theorem isPlain_not_colour (c : Char) (h : isPlain c) : c ≠ '\x03' := by
  unfold isPlain at h
  rw [Bool.not_eq_eq_eq_not, Bool.not_true, Bool.or_eq_false_iff] at h
  simpa using h.2

theorem minify1_plain (l : Str) (h : ∀ c ∈ l, isPlain c) : minify1 l = l := by
  unfold minify1
  rw [show runSub l = l from runSubF_plain l.length l h]
  rw [step2_plain l h]
  rw [step3a_plain l (fun c hc => isPlain_not_colour c (h c hc))]
  rw [show step3b l = l from step3bF_plain l.length l
    (fun c hc => isPlain_not_colour c (h c hc))]
  exact step4F_plain l.length l h

theorem splitOn_mem_subset {sep : Char} : ∀ {l piece : Str},
    piece ∈ l.splitOn sep → ∀ c ∈ piece, c ∈ l := by
  intro l
  induction l with
  | nil =>
    intro piece hp c hc
    rw [List.splitOn_nil] at hp
    rcases List.mem_singleton.mp hp with rfl
    cases hc
  | cons a t ih =>
    intro piece hp c hc
    rw [List.splitOn, List.splitOnP_cons] at hp
    by_cases ha : (a == sep) = true
    · rw [if_pos ha] at hp
      rcases List.mem_cons.mp hp with rfl | hp
      · cases hc
      · refine List.mem_cons_of_mem _ (ih ?_ c hc)
        rw [List.splitOn]
        exact hp
    · rw [if_neg ha] at hp
      rcases hsp : List.splitOnP (fun x => x == sep) t with _ | ⟨hd, tl⟩
      · exact absurd hsp (List.splitOnP_ne_nil _ t)
      · rw [hsp, List.modifyHead_cons] at hp
        have hmemhd : hd ∈ t.splitOn sep := by
          rw [List.splitOn, hsp]
          exact List.mem_cons_self _ _
        rcases List.mem_cons.mp hp with rfl | hp2
        · rcases List.mem_cons.mp hc with rfl | hc2
          · exact List.mem_cons_self _ _
          · exact List.mem_cons_of_mem _ (ih hmemhd c hc2)
        · have hmem2 : piece ∈ t.splitOn sep := by
            rw [List.splitOn, hsp]
            exact List.mem_cons_of_mem _ hp2
          exact List.mem_cons_of_mem _ (ih hmem2 c hc)

theorem minify_plain (l : Str) (h : ∀ c ∈ l, isPlain c) : minify l = l := by
  unfold minify
  have hpieces : (l.splitOn '\n').map minify1 = l.splitOn '\n' := by
    have hcongr : (l.splitOn '\n').map minify1 = (l.splitOn '\n').map id :=
      List.map_congr_left
        (fun piece hp => minify1_plain piece (fun c hc => h c (splitOn_mem_subset hp c hc)))
    rw [hcongr, List.map_id]
  rw [hpieces]
  exact List.intercalate_splitOn l '\n'

/-- C2 amended: `minify` is not idempotent in general (see the counterexample:
a bare colour token emitted by `control_reduce` can fuse with a following
literal digit and retokenize differently on the second pass); on marker-free
strings `minify` is the identity and hence idempotent there. -/
theorem c2_minify_plain_idempotent (s : Str) (h : ∀ c ∈ s, isPlain c) :
    minify s = s ∧ minify (minify s) = minify s := by
  have h1 := minify_plain s h
  refine ⟨h1, ?_⟩
  rw [h1, h1]

/-- Witness for the amended C2 at a concrete input. -/
theorem c2_minify_plain_idempotent_witness :
    minify (str "ab") = str "ab"
    ∧ minify (minify (str "ab")) = minify (str "ab") :=
  c2_minify_plain_idempotent (str "ab") (by decide)

/-- C4 counterexample: on an empty input list `namedtable` raises ValueError
(`max(results, key=len)` of an empty sequence), modelled as `none`; it does
not return an empty table.  `aligntable` likewise raises on
`max(len(i) for i in rows)`. -/
theorem c4_counterexample :
    namedtable [] 100 none [] [] 12 = none
    ∧ aligntable [] aligntableSep = none := by
  constructor
  · rfl
  · rfl

/-- C4 amended: given an empty input list, `justifiedtable` returns an empty
list, but `namedtable` and `aligntable` raise (Python ValueError from `max` of
an empty sequence, modelled as `none`) for every choice of the remaining
arguments. -/
theorem c4_empty_behavior (size : Int) (rowmax : Option Int) (header rheader : Str)
    (color : Nat) (sep : Str) (width minsep : Int) :
    justifiedtable [] width minsep = []
    ∧ namedtable [] size rowmax header rheader color = none
    ∧ aligntable [] sep = none := by
  refine ⟨rfl, rfl, rfl⟩

/-- C5 counterexample: `namedtable` measures its widest label with raw `len`,
so on labels containing marker bytes it computes a different table (here: one
column and two data rows) than the display-width variant the claim describes
(two columns, one data row). -/
theorem c5_counterexample :
    namedtable [str "\x02a", str "b"] 10 none [] [] 12
      ≠ namedtableSpec [str "\x02a", str "b"] 10 none [] [] 12 := by
  decide

theorem maxByM_mem (m : Str → Nat) : ∀ (l : List Str) (x : Str), maxByM m x l ∈ x :: l := by
  intro l
  induction l with
  | nil => intro x; exact List.mem_singleton.mpr rfl
  | cons y r ih =>
    intro x
    show maxByM m (if m y > m x then y else x) r ∈ x :: y :: r
    rcases List.mem_cons.mp (ih (if m y > m x then y else x)) with hm | hm
    · rw [hm]
      by_cases hc : m y > m x
      · rw [if_pos hc]
        exact List.mem_cons_of_mem _ (List.mem_cons_self _ _)
      · rw [if_neg hc]
        exact List.mem_cons_self _ _
    · exact List.mem_cons_of_mem _ (List.mem_cons_of_mem _ hm)

theorem maxByM_congr (m1 m2 : Str → Nat) : ∀ (l : List Str) (x : Str),
    (∀ y ∈ x :: l, m1 y = m2 y) → maxByM m1 x l = maxByM m2 x l := by
  intro l
  induction l with
  | nil => intro x _; rfl
  | cons y r ih =>
    intro x h
    have hx : m1 x = m2 x := h x (List.mem_cons_self _ _)
    have hy : m1 y = m2 y := h y (List.mem_cons_of_mem _ (List.mem_cons_self _ _))
    have hif : (if m1 y > m1 x then y else x) = (if m2 y > m2 x then y else x) := by
      rw [hx, hy]
    show maxByM m1 (if m1 y > m1 x then y else x) r
      = maxByM m2 (if m2 y > m2 x then y else x) r
    rw [hif]
    refine ih _ (fun z hz => ?_)
    rcases List.mem_cons.mp hz with rfl | hz
    · by_cases hc : m2 y > m2 x
      · rw [if_pos hc]
        exact hy
      · rw [if_neg hc]
        exact hx
    · exact h z (List.mem_cons_of_mem _ (List.mem_cons_of_mem _ hz))

theorem removeFirst_subset (v : Str) : ∀ (l : List Str) (y : Str),
    y ∈ removeFirst v l → y ∈ l := by
  intro l
  induction l with
  | nil => intro y hy; cases hy
  | cons x r ih =>
    intro y hy
    unfold removeFirst at hy
    by_cases hc : x = v
    · rw [if_pos hc] at hy
      exact List.mem_cons_of_mem _ hy
    · rw [if_neg hc] at hy
      rcases List.mem_cons.mp hy with rfl | hy
      · exact List.mem_cons_self _ _
      · exact List.mem_cons_of_mem _ (ih y hy)

theorem ntCompute_congr (m1 m2 : Str → Nat) (results : List Str) (size : Int)
    (h : ∀ l ∈ results, m1 l = m2 l) :
    ntCompute m1 results size = ntCompute m2 results size := by
  cases results with
  | nil => rfl
  | cons x xs =>
    have hb : m1 (maxByM m1 x xs) = m2 (maxByM m2 x xs) := by
      rw [maxByM_congr m1 m2 xs x h]
      exact h (maxByM m2 x xs) (maxByM_mem m2 xs x)
    simp only [ntCompute]
    rw [hb]

theorem ntShrink_congr (m1 m2 : Str → Nat) (size rm : Int) :
    ∀ (fuel : Nat) (results : List Str) (v : Nat × Int × Int),
      (∀ l ∈ results, m1 l = m2 l) →
      ntShrink m1 size rm fuel results v = ntShrink m2 size rm fuel results v := by
  intro fuel
  induction fuel with
  | zero => intro results v _; rfl
  | succ n ih =>
    intro results v h
    rcases v with ⟨b, c, r⟩
    cases results with
    | nil =>
      simp only [ntShrink]
    | cons x xs =>
      simp only [ntShrink]
      by_cases hr : r > rm
      · rw [if_pos hr, if_pos hr]
        have hmax : maxByM m1 x xs = maxByM m2 x xs := maxByM_congr m1 m2 xs x h
        rw [hmax]
        have h2 : ∀ l ∈ removeFirst (maxByM m2 x xs) (x :: xs), m1 l = m2 l :=
          fun l hl => h l (removeFirst_subset _ _ l hl)
        rw [ntCompute_congr m1 m2 _ size h2]
        cases ntCompute m2 (removeFirst (maxByM m2 x xs) (x :: xs)) size with
        | none => rfl
        | some v2 => exact ih _ v2 h2
      · rw [if_neg hr, if_neg hr]

theorem ntLoop_congr (m1 m2 : Str → Nat) (results : List Str) (size : Int)
    (rowmax : Option Int) (v : Nat × Int × Int)
    (h : ∀ l ∈ results, m1 l = m2 l) :
    ntLoop m1 results size rowmax v = ntLoop m2 results size rowmax v := by
  unfold ntLoop
  rw [ntShrink_congr m1 m2 size (rowmax.getD 0) (results.length + 1) results v h]

theorem namedtableCore_congr (m1 m2 : Str → Nat) (results : List Str) (size : Int)
    (rowmax : Option Int) (header rheader : Str) (color : Nat)
    (h : ∀ l ∈ results, m1 l = m2 l) :
    namedtableCore m1 results size rowmax header rheader color =
      namedtableCore m2 results size rowmax header rheader color := by
  unfold namedtableCore
  rw [ntCompute_congr m1 m2 results size h]
  cases hc : ntCompute m2 results size with
  | none => rfl
  | some v =>
    show (match ntLoop m1 results size rowmax v with
      | none => none
      | some st => some (namedtableEmit header rheader color st)) =
      (match ntLoop m2 results size rowmax v with
      | none => none
      | some st => some (namedtableEmit header rheader color st))
    rw [ntLoop_congr m1 m2 results size rowmax v h]

/-- C5 amended: `namedtable` measures its widest label and column count with
raw codepoint length (`len`), not display width; the two notions coincide
exactly when every label is marker-free, and then `namedtable` agrees with the
display-width variant `namedtableSpec` that the claim describes.  (`striplen`
is used for cell padding in both.) -/
theorem c5_raw_length_measure (results : List Str) (size : Int) (rowmax : Option Int)
    (header rheader : Str) (color : Nat)
    (h : ∀ l ∈ results, striplen l = l.length) :
    namedtable results size rowmax header rheader color =
      namedtableSpec results size rowmax header rheader color :=
  namedtableCore_congr List.length striplen results size rowmax header rheader color
    (fun l hl => (h l hl).symm)

/-- Witness for the amended C5 at a concrete input. -/
theorem c5_raw_length_measure_witness :
    namedtable [str "ab", str "c"] 100 none [] [] 12 =
      namedtableSpec [str "ab", str "c"] 100 none [] [] 12 :=
  c5_raw_length_measure [str "ab", str "c"] 100 none [] [] 12 (by decide)

theorem foldl_striplen_minsep (minsep : Int) (l : List Str) : ∀ a : Int,
    l.foldl (fun a x => a + striplenI x + minsep) a
      = a + striplenSum l + minsep * l.length := by
  induction l with
  | nil => intro a; simp [striplenSum]
  | cons x r ih =>
    intro a
    rw [List.foldl_cons, ih]
    simp only [striplenSum, List.map_cons, List.sum_cons, List.length_cons]
    push_cast
    ring

/-- Invariant of the rows produced by `justifiedtable`'s packing loop: a row
with at least two items fits in the width together with one minimum separator
per gap. -/
def jtRowOK (width minsep : Int) (row : List Str) : Prop :=
  row.length ≤ 1 ∨ striplenSum row + minsep * ((row.length : Int) - 1) ≤ width

theorem jtRowsGo_ok (width minsep : Int) :
    ∀ (arr : List Str) (done : List (List Str)) (cur : List Str),
      (∀ r ∈ done, jtRowOK width minsep r) → jtRowOK width minsep cur →
      ∀ r ∈ jtRowsGo width minsep done cur arr, jtRowOK width minsep r := by
  intro arr
  induction arr with
  | nil =>
    intro done cur hdone hcur r hr
    rw [jtRowsGo] at hr
    rcases List.mem_append.mp hr with h | h
    · exact hdone r h
    · rcases List.mem_singleton.mp h with rfl
      exact hcur
  | cons d rest ih =>
    intro done cur hdone hcur r hr
    rw [jtRowsGo] at hr
    by_cases hc : (cur.foldl (fun a x => a + striplenI x + minsep) 0) + striplenI d ≤ width
    · rw [if_pos hc] at hr
      refine ih done (cur ++ [d]) hdone ?_ r hr
      right
      rw [foldl_striplen_minsep] at hc
      have hsum : striplenSum (cur ++ [d]) = striplenSum cur + striplenI d := by
        simp [striplenSum]
      have hlen : (((cur ++ [d]).length : Int)) - 1 = (cur.length : Int) := by
        simp
      rw [hsum, hlen]
      linarith
    · rw [if_neg hc] at hr
      refine ih (done ++ [cur]) [d] ?_ ?_ r hr
      · intro r2 hr2
        rcases List.mem_append.mp hr2 with h2 | h2
        · exact hdone r2 h2
        · rcases List.mem_singleton.mp h2 with rfl
          exact hcur
      · left
        simp


theorem jtRows_ok (array : List Str) (width minsep : Int) :
    ∀ r ∈ jtRows array width minsep, jtRowOK width minsep r :=
  jtRowsGo_ok width minsep array [] []
    (fun r hr => absurd hr (List.not_mem_nil r)) (Or.inl (by simp))

theorem sum_indicator_range : ∀ (n r : Nat), r ≤ n →
    ((List.range n).map (fun i => if i < r then 1 else 0)).sum = r := by
  intro n
  induction n with
  | zero =>
    intro r h
    have : r = 0 := Nat.le_zero.mp h
    subst this
    rfl
  | succ n ih =>
    intro r h
    rw [List.range_succ, List.map_append, List.sum_append]
    by_cases hr : r ≤ n
    · rw [ih r hr]
      have hn : ¬(n < r) := by omega
      simp [hn]
    · have hreq : r = n + 1 := by omega
      subst hreq
      have hconst : ∀ i ∈ List.range n, (if i < n + 1 then (1 : Nat) else 0) = 1 := by
        intro i hi
        rw [if_pos (by have := List.mem_range.mp hi; omega)]
      rw [List.map_congr_left hconst]
      simp

theorem sum_gaps (n q r : Nat) (h : r ≤ n) :
    ((List.range n).map (fun i => q + (if i < r then 1 else 0))).sum = n * q + r := by
  rw [List.sum_map_add, sum_indicator_range n r h]
  have hconst : ((List.range n).map (fun _ => q)).sum = n * q := by
    simp [Nat.mul_comm]
  rw [hconst]

theorem jtFold_eq (q r : Int) : ∀ (l : List (Nat × Str)) (acc : Str),
    l.foldl (fun a p => a ++ spacesI q ++ (if (p.1 : Int) < r then [' '] else []) ++ p.2) acc
      = acc ++ (l.map (fun p =>
          spacesI q ++ ((if (p.1 : Int) < r then [' '] else []) ++ p.2))).flatten := by
  intro l
  induction l with
  | nil => intro acc; simp
  | cons p ps ih =>
    intro acc
    rw [List.foldl_cons, ih, List.map_cons, List.flatten_cons]
    simp [List.append_assoc]

/-- C9: in justified wrapping, every output row with more than one item is
the first item followed, for each remaining item, by a gap of spaces and the
item; the gaps are weakly decreasing left to right and differ by at most one
(the integer-division remainder goes to the leftmost gaps first); the leftover
width — target width minus total item display width — is nonnegative and is
exactly the total number of separator spaces inserted. -/
theorem c9_justified_distribution (array : List Str) (width minsep : Int)
    (hm : 0 ≤ minsep) (row : List Str)
    (hrow : row ∈ jtRows array width minsep) (hlen : 1 < row.length) :
    ∃ g : Nat → Nat,
      jtLine width row ∈ justifiedtable array width minsep
      ∧ jtLine width row = row.headD []
          ++ ((row.tail.enum).map (fun p => List.replicate (g p.1) ' ' ++ p.2)).flatten
      ∧ (∀ i j : Nat, i ≤ j → g j ≤ g i ∧ g i ≤ g j + 1)
      ∧ 0 ≤ width - striplenSum row
      ∧ ((((List.range (row.length - 1)).map g).sum : Nat) : Int)
          = width - striplenSum row := by
  rcases row with _ | ⟨x0, tail⟩
  · cases hlen
  have hN : 0 < tail.length := by simpa using hlen
  have hn : (((x0 :: tail).length : Int)) - 1 = (tail.length : Int) := by
    rw [List.length_cons]
    push_cast
    ring
  have hnpos : (0 : Int) < (tail.length : Int) := by exact_mod_cast hN
  have hL : 0 ≤ width - striplenSum (x0 :: tail) := by
    rcases jtRows_ok array width minsep _ hrow with hok | hok
    · rw [List.length_cons] at hok
      omega
    · rw [hn] at hok
      have : 0 ≤ minsep * (tail.length : Int) := mul_nonneg hm (le_of_lt hnpos)
      linarith
  set L := width - striplenSum (x0 :: tail) with hLdef
  set q := Int.fdiv L ((tail.length : Int)) with hqdef
  set r := Int.fmod L ((tail.length : Int)) with hrdef
  have hq : 0 ≤ q := Int.fdiv_nonneg hL (le_of_lt hnpos)
  have hr0 : 0 ≤ r := Int.fmod_nonneg hL (le_of_lt hnpos)
  have hrlt : r < (tail.length : Int) := Int.fmod_lt_of_pos L hnpos
  have hid : (tail.length : Int) * q + r = L := Int.fdiv_add_fmod L _
  refine ⟨fun i => (q + if (i : Int) < r then 1 else 0).toNat, ?_, ?_, ?_, hL, ?_⟩
  · refine List.mem_filterMap.mpr ⟨x0 :: tail, hrow, ?_⟩
    unfold rowEmit
    rw [if_pos hlen]
  · show jtLine width (x0 :: tail) = x0 ++ _
    simp only [jtLine]
    rw [hn]
    rw [← hLdef, ← hqdef, ← hrdef]
    rw [jtFold_eq q r tail.enum x0]
    have hmap : (tail.enum).map
        (fun p => spacesI q ++ ((if (p.1 : Int) < r then [' '] else []) ++ p.2))
        = (tail.enum).map
          (fun p => List.replicate ((q + if (p.1 : Int) < r then 1 else 0).toNat) ' ' ++ p.2) := by
      apply List.map_congr_left
      intro p hp
      by_cases hcase : (p.1 : Int) < r
      · rw [if_pos hcase, if_pos hcase]
        rw [Int.toNat_add hq (by norm_num)]
        rw [List.replicate_add]
        simp [spacesI, List.append_assoc]
      · rw [if_neg hcase, if_neg hcase]
        simp [spacesI]
    rw [hmap]
    rfl
  · intro i j hij
    have hcast : (i : Int) ≤ (j : Int) := by exact_mod_cast hij
    constructor
    · by_cases hi : (i : Int) < r
      · by_cases hj : (j : Int) < r
        · simp [hi, hj]
        · simp only [if_pos hi, if_neg hj]
          omega
      · have hj : ¬((j : Int) < r) := by omega
        simp only [if_neg hi, if_neg hj]
        omega
    · by_cases hi : (i : Int) < r
      · by_cases hj : (j : Int) < r
        · simp [hi, hj]
        · simp only [if_pos hi, if_neg hj]
          omega
      · have hj : ¬((j : Int) < r) := by omega
        simp only [if_neg hi, if_neg hj]
        omega
  · have hsimp : (x0 :: tail).length - 1 = tail.length := by simp
    rw [hsimp]
    have hpt : ∀ i ∈ List.range tail.length,
        (q + if (i : Int) < r then 1 else 0).toNat
          = q.toNat + (if i < r.toNat then 1 else 0) := by
      intro i _
      by_cases hcase : (i : Int) < r
      · rw [if_pos hcase, if_pos (by omega), Int.toNat_add hq (by norm_num)]
        rfl
      · rw [if_neg hcase, if_neg (by omega)]
        simp
    rw [List.map_congr_left hpt]
    rw [sum_gaps tail.length q.toNat r.toNat (by omega)]
    push_cast
    rw [Int.toNat_of_nonneg hq, Int.toNat_of_nonneg hr0]
    linarith

/-- Witness for C9 at the spec's concrete example (section 8): items
cat/dog/bird at width 20 with minimum separator 3 form a single justified
row. -/
theorem c9_justified_distribution_witness :
    ∃ g : Nat → Nat,
      jtLine 20 [str "cat", str "dog", str "bird"]
          ∈ justifiedtable [str "cat", str "dog", str "bird"] 20 3
      ∧ jtLine 20 [str "cat", str "dog", str "bird"]
          = ([str "cat", str "dog", str "bird"].headD [])
          ++ ((([str "cat", str "dog", str "bird"].tail).enum).map
              (fun p => List.replicate (g p.1) ' ' ++ p.2)).flatten
      ∧ (∀ i j : Nat, i ≤ j → g j ≤ g i ∧ g i ≤ g j + 1)
      ∧ 0 ≤ (20 : Int) - striplenSum [str "cat", str "dog", str "bird"]
      ∧ ((((List.range ([str "cat", str "dog", str "bird"].length - 1)).map g).sum : Nat) : Int)
          = 20 - striplenSum [str "cat", str "dog", str "bird"] :=
  c9_justified_distribution [str "cat", str "dog", str "bird"] 20 3 (by decide)
    [str "cat", str "dog", str "bird"] (by decide) (by decide)
